import Mathlib

/-!
Verification of the grammar analyzer in
`src/analizador_ll1_slr1_ll1corregido.py`.

The Python program is embedded shallowly:

* `Grammar` mirrors the fields of the Python `Grammar` class
  (`first`/`follow` are not stored on the record; the methods
  `calculate_first`/`calculate_follow` are embedded as pure functions
  returning the maps).
* Python `dict`s keyed in insertion order become association lists,
  Python `set`s of strings become insertion-ordered duplicate-free
  `List String` values (`sadd`/`lunion`/`lerase` mirror `add`, `|=` and
  `- \x7b...\x7d`), so that set sizes are list lengths as in the
  `len(...)` comparisons of the source.
* The `while changed:` fixpoint loops and the breadth-first state
  exploration are embedded with an explicit fuel parameter; the fuel
  chosen for the wrappers is provably larger than the number of
  iterations the loop can make (the sets only grow inside a finite
  universe), so the wrappers compute the same value the Python loops do.
-/

/-- Python `str.isupper()` restricted to the alphabet actually used here:
at least one cased character and no lowercase character. -/
def pyIsUpper (s : String) : Bool :=
  s.data.any (fun c => c.isUpper || c.isLower) && s.data.all (fun c => !c.isLower)

/-- Splitting a character list on whitespace runs (`cur` holds the
characters of the current token, reversed). -/
def pySplitChars : List Char → List Char → List String
  | [], cur => if cur = [] then [] else [String.mk cur.reverse]
  | c :: rest, cur =>
      if c = ' ' ∨ c = '\t' ∨ c = '\n' then
        if cur = [] then pySplitChars rest []
        else String.mk cur.reverse :: pySplitChars rest []
      else pySplitChars rest (c :: cur)

/-- Python `body_str.strip().split()`: split on whitespace, dropping
empty pieces. -/
def pySplit (s : String) : List String :=
  pySplitChars s.data []

/-- Lookup in an association list (first entry wins), as for a Python
dict whose keys are in insertion order. -/
def alookup {α β : Type} [DecidableEq α] (l : List (α × β)) (k : α) : Option β :=
  (l.find? (fun p => decide (p.1 = k))).map (fun p => p.2)

/-- `d[k] = v` on an association list: replace in place or append. -/
def aset {α β : Type} [DecidableEq α] : List (α × β) → α → β → List (α × β)
  | [], k, v => [(k, v)]
  | p :: rest, k, v => if p.1 = k then (k, v) :: rest else p :: aset rest k v

/-- `set.add` on an insertion-ordered duplicate-free list. -/
def sadd (l : List String) (s : String) : List String :=
  if s ∈ l then l else l ++ [s]

/-- Set union `a |= b` on insertion-ordered duplicate-free lists. -/
def lunion (a b : List String) : List String :=
  b.foldl sadd a

/-- Set difference with a singleton, `a - \x7bx\x7d`. -/
def lerase (a : List String) (x : String) : List String :=
  a.filter (fun y => y ≠ x)

/-- Subset test between list-represented sets. -/
def lsub (a b : List String) : Bool :=
  a.all (fun x => decide (x ∈ b))

/-- `self.productions[head].append(body)` on the association list:
append the body under `head`, creating the entry at the end if new. -/
def addBody : List (String × List (List String)) → String → List String →
    List (String × List (List String))
  | [], head, body => [(head, [body])]
  | e :: rest, head, body =>
      if e.1 = head then (e.1, e.2 ++ [body]) :: rest
      else e :: addBody rest head body

/-- LR(0) item, as the Python `LR0Item` class (value equality on head,
full body and dot position). -/
structure LR0Item where
  head : String
  body : List String
  dot : Nat
deriving DecidableEq, Repr

def LR0Item.is_reduce_item (it : LR0Item) : Bool :=
  it.dot = it.body.length

def LR0Item.next_symbol (it : LR0Item) : Option String :=
  it.body.get? it.dot

def LR0Item.advance (it : LR0Item) : LR0Item :=
  { it with dot := it.dot + 1 }

/-- SLR action table entries. -/
inductive SlrAction where
  | shift (t : Nat)
  | reduce (head : String) (body : List String)
  | accept
deriving DecidableEq, Repr

abbrev ActionTbl := List ((Nat × String) × SlrAction)
abbrev GotoTbl := List ((Nat × String) × Nat)
abbrev LL1Tbl := List ((String × String) × List String)

/-- The Python `Grammar` object (the `first`/`follow` caches are
recomputed rather than stored). -/
structure Grammar where
  productions : List (String × List (List String)) := []
  terminals : List String := []
  non_terminals : List String := []
  start_symbol : Option String := none
  action_table : ActionTbl := []
  goto_table : GotoTbl := []
  has_slr_conflict : Bool := false
deriving DecidableEq, Repr

def lookupProds (g : Grammar) (s : String) : Option (List (List String)) :=
  alookup g.productions s

/-- The symbol classification of `add_production` (lines 50-54 of the
source): a non-uppercase symbol other than the epsilon marker goes to
the terminals, any other symbol different from the head goes to the
non-terminals. The pair is (terminals, non_terminals). -/
def classifySym (head : String) (p : List String × List String)
    (sym : String) : List String × List String :=
  if pyIsUpper sym = false ∧ sym ≠ "e" then (sadd p.1 sym, p.2)
  else if sym ≠ head then (p.1, sadd p.2 sym)
  else p

/-- `Grammar.add_production(head, body_str)`. -/
def add_production (g : Grammar) (head : String) (body_str : String) : Grammar :=
  let body := pySplit body_str
  let start := if g.start_symbol.isNone then some head else g.start_symbol
  let cls := body.foldl (classifySym head) (g.terminals, sadd g.non_terminals head)
  { g with
    productions := addBody g.productions head body
    terminals := cls.1
    non_terminals := cls.2
    start_symbol := start }

abbrev FirstMap := String → List String

def updF (m : FirstMap) (k : String) (v : List String) : FirstMap :=
  fun s => if s = k then v else m s

/-- `Grammar.first_of_string(symbols)`: scan left to right; a symbol
with no productions is added and the scan stops; otherwise the symbol's
FIRST minus epsilon is unioned in and the scan continues only while the
symbol is nullable; a completed scan adds epsilon. -/
def fosGo (g : Grammar) (fm : FirstMap) (acc : List String) :
    List String → List String
  | [] => sadd acc "e"
  | sym :: rest =>
      if (lookupProds g sym).isNone then sadd acc sym
      else
        let acc2 := lunion acc (lerase (fm sym) "e")
        if "e" ∈ fm sym then fosGo g fm acc2 rest else acc2

def first_of_string (g : Grammar) (fm : FirstMap) (symbols : List String) :
    List String :=
  match symbols with
  | [] => ["e"]
  | _ :: _ => fosGo g fm [] symbols

/-- One body of the inner loop of `calculate_first`: scan the body
symbols, with the `break`/`changed` behaviour of lines 77-89 of the
source (note: the `break` of line 86 skips the `changed` update of
line 89, and the epsilon test of line 87 compares the current symbol
with the value of the last body symbol). -/
def firstBody (g : Grammar) (head lastSym : String) :
    List String → FirstMap → Bool → FirstMap × Bool
  | [], m, ch => (m, ch)
  | sym :: rest, m, ch =>
      if (lookupProds g sym).isNone then
        if sym ∈ m head then (m, ch)
        else (updF m head (sadd (m head) sym), true)
      else
        let before := (m head).length
        let m1 := updF m head (lunion (m head) (lerase (m sym) "e"))
        if "e" ∉ m sym then (m1, ch)
        else
          let m2 := if sym = lastSym then updF m1 head (sadd (m1 head) "e") else m1
          firstBody g head lastSym rest m2 (ch || decide (before < (m2 head).length))

def firstBodies (g : Grammar) (head : String) :
    List (List String) → FirstMap → Bool → FirstMap × Bool
  | [], m, ch => (m, ch)
  | b :: bs, m, ch =>
      let r := firstBody g head (b.getLastD "") b m ch
      firstBodies g head bs r.1 r.2

def firstProds (g : Grammar) :
    List (String × List (List String)) → FirstMap → Bool → FirstMap × Bool
  | [], m, ch => (m, ch)
  | e :: rest, m, ch =>
      let r := firstBodies g e.1 e.2 m ch
      firstProds g rest r.1 r.2

/-- One full pass of the `while changed:` loop of `calculate_first`. -/
def passFirst (g : Grammar) (m : FirstMap) : FirstMap × Bool :=
  firstProds g g.productions m false

/-- The `while changed:` loop with fuel; returns the map together with
`false` when the loop exited because a pass made no change, `true` when
the fuel ran out first. -/
def firstRun (g : Grammar) : Nat → FirstMap → FirstMap × Bool
  | 0, m => (m, true)
  | n + 1, m =>
      let r := passFirst g m
      if r.2 then firstRun g n r.1 else (r.1, false)

/-- All symbols occurring in production bodies, with repetitions. -/
def allSyms (g : Grammar) : List String :=
  g.productions.foldr (fun e acc => e.2.foldr (fun b acc2 => b ++ acc2) acc) []

/-- The production heads (keys of the productions dict). -/
def headsF (g : Grammar) : Finset String :=
  (g.productions.map (fun e => e.1)).toFinset

/-- Fuel that provably exceeds the number of passes the FIRST loop can
make: each changing pass grows the total size of the FIRST sets, which
is bounded by `|heads| * |body symbols ∪ \x7be\x7d|`. -/
def fuelFirst (g : Grammar) : Nat :=
  g.productions.length * ((allSyms g).length + 1) + 1

def calculate_first (g : Grammar) : FirstMap :=
  (firstRun g (fuelFirst g) (fun _ => [])).1

abbrev FollowMap := String → List String

/-- `self.follow[self.start_symbol].add(end marker)`. -/
def followInit (g : Grammar) : FollowMap :=
  fun s => if g.start_symbol = some s then ["$"] else []

/-- Inner loop of `calculate_follow` (lines 98-108 of the source) over
one production body, scanning each symbol `B` with its suffix `beta`. -/
def followBody (g : Grammar) (fm : FirstMap) (head : String) :
    List String → FollowMap → Bool → FollowMap × Bool
  | [], m, ch => (m, ch)
  | B :: beta, m, ch =>
      if (lookupProds g B).isSome then
        let fos := first_of_string g fm beta
        let trailer := lerase fos "e"
        let r1 : FollowMap × Bool :=
          if lsub trailer (m B) then (m, ch)
          else (updF m B (lunion (m B) trailer), true)
        let r2 : FollowMap × Bool :=
          if "e" ∈ fos ∨ beta = [] then
            if lsub (r1.1 head) (r1.1 B) then r1
            else (updF r1.1 B (lunion (r1.1 B) (r1.1 head)), true)
          else r1
        followBody g fm head beta r2.1 r2.2
      else followBody g fm head beta m ch

def followBodies (g : Grammar) (fm : FirstMap) (head : String) :
    List (List String) → FollowMap → Bool → FollowMap × Bool
  | [], m, ch => (m, ch)
  | b :: bs, m, ch =>
      let r := followBody g fm head b m ch
      followBodies g fm head bs r.1 r.2

def followProds (g : Grammar) (fm : FirstMap) :
    List (String × List (List String)) → FollowMap → Bool → FollowMap × Bool
  | [], m, ch => (m, ch)
  | e :: rest, m, ch =>
      let r := followBodies g fm e.1 e.2 m ch
      followProds g fm rest r.1 r.2

def passFollow (g : Grammar) (fm : FirstMap) (m : FollowMap) : FollowMap × Bool :=
  followProds g fm g.productions m false

def followRun (g : Grammar) (fm : FirstMap) : Nat → FollowMap → FollowMap × Bool
  | 0, m => (m, true)
  | n + 1, m =>
      let r := passFollow g fm m
      if r.2 then followRun g fm n r.1 else (r.1, false)

def fuelFollow (g : Grammar) : Nat :=
  g.productions.length * ((allSyms g).length + 2) + 2

def calculate_follow (g : Grammar) (fm : FirstMap) : FollowMap :=
  (followRun g fm (fuelFollow g) (followInit g)).1

/-- `Grammar.augmented()`: a copy with start symbol `S + "'"` and the
production `S' -> S` registered through `add_production`. -/
def Grammar.startStr (g : Grammar) : String :=
  g.start_symbol.getD ""

def Grammar.augmented (g : Grammar) : Grammar :=
  let s := g.startStr
  let base : Grammar :=
    { productions := g.productions
      terminals := g.terminals
      non_terminals := g.non_terminals
      start_symbol := some (s ++ "\x27") }
  add_production base (s ++ "\x27") s

/-- Membership of an item in a list-represented item set. -/
def memItem (it : LR0Item) (s : List LR0Item) : Bool :=
  s.any (fun j => decide (it = j))

/-- Value equality of two list-represented item sets (Python
`frozenset` equality). -/
def stateEq (s t : List LR0Item) : Bool :=
  s.all (fun i => memItem i t) && t.all (fun i => memItem i s)

/-- Insertion of one dot-0 item of a production into the pending set of
`Grammar.closure`, skipping items already present. -/
def closureAddProd (cs : List LR0Item) (sym : String) (acc2 : List LR0Item)
    (b : List String) : List LR0Item :=
  let nit : LR0Item := ⟨sym, b, 0⟩
  if memItem nit cs || memItem nit acc2 then acc2 else acc2 ++ [nit]

/-- Processing of one item of the closure set: when its next symbol
names a production head, collect that head's productions at dot 0. -/
def closureItemStep (g : Grammar) (cs : List LR0Item) (acc : List LR0Item)
    (it : LR0Item) : List LR0Item :=
  match it.next_symbol with
  | none => acc
  | some sym =>
      if sym ≠ "" then
        match lookupProds g sym with
        | none => acc
        | some prods => prods.foldl (closureAddProd cs sym) acc
      else acc

/-- One pass of the `while added:` loop of `Grammar.closure`. -/
def closureStep (g : Grammar) (cs : List LR0Item) : List LR0Item :=
  cs ++ cs.foldl (closureItemStep g cs) []

def closureRun (g : Grammar) : Nat → List LR0Item → List LR0Item
  | 0, cs => cs
  | n + 1, cs =>
      let cs2 := closureStep g cs
      if cs2.length = cs.length then cs else closureRun g n cs2

/-- Fuel for the closure loop: it only ever adds dot-0 items of
registered bodies, of which there are at most `numBodies`. -/
def numBodies (g : Grammar) : Nat :=
  g.productions.foldr (fun e acc => e.2.length + acc) 0

def Grammar.closure (g : Grammar) (items : List LR0Item) : List LR0Item :=
  closureRun g (numBodies g + 1) items

/-- Advancing one item past `sym` while collecting the moved set of
`Grammar.goto`. -/
def gotoMoved (sym : String) (acc : List LR0Item) (it : LR0Item) :
    List LR0Item :=
  if it.next_symbol = some sym then
    if memItem it.advance acc then acc else acc ++ [it.advance]
  else acc

/-- `Grammar.goto(items, symbol)`. -/
def Grammar.goto (g : Grammar) (items : List LR0Item) (sym : String) :
    List LR0Item :=
  g.closure (items.foldl (gotoMoved sym) [])

/-- The BFS state of `build_lr0_states`: the `seen` index map, the
`states` arena, the FIFO worklist and the transition table. -/
structure BfsState where
  seen : List (List LR0Item × Nat)
  states : List (List LR0Item)
  queue : List (List LR0Item)
  trans : List ((Nat × String) × Nat)

def lookupSeen (seen : List (List LR0Item × Nat)) (s : List LR0Item) :
    Option Nat :=
  (seen.find? (fun p => stateEq p.1 s)).map (fun p => p.2)

/-- `self.terminals | self.non_terminals`, in a deterministic order. -/
def bfsSymbols (g : Grammar) : List String :=
  g.non_terminals.foldl sadd g.terminals

/-- Body of the `for symbol in ...` loop of `build_lr0_states`. -/
def bfsProcessSym (g : Grammar) (idx : Nat) (current : List LR0Item)
    (st : BfsState) (sym : String) : BfsState :=
  let target := g.goto current sym
  if target.isEmpty then st
  else
    match lookupSeen st.seen target with
    | some t => { st with trans := aset st.trans (idx, sym) t }
    | none =>
        let t := st.states.length
        { seen := st.seen ++ [(target, t)]
          states := st.states ++ [target]
          queue := st.queue ++ [target]
          trans := aset st.trans (idx, sym) t }

def bfsStep (g : Grammar) (st : BfsState) (current : List LR0Item) : BfsState :=
  let idx := (lookupSeen st.seen current).getD 0
  (bfsSymbols g).foldl (bfsProcessSym g idx current) st

def bfsRun (g : Grammar) : Nat → BfsState → BfsState
  | 0, st => st
  | n + 1, st =>
      match st.queue with
      | [] => st
      | current :: rest => bfsRun g n (bfsStep g { st with queue := rest } current)

def startItem (g : Grammar) : LR0Item :=
  ⟨g.startStr ++ "\x27", [g.startStr], 0⟩

def bfsInit (g : Grammar) : BfsState :=
  let sc := g.augmented.closure [startItem g]
  { seen := [(sc, 0)], states := [sc], queue := [sc], trans := [] }

/-- All items of the augmented grammar plus the start item at both dot
positions: every state the BFS can build is a subset of this set. -/
def itemsOfBody (h : String) (b : List String) : List LR0Item :=
  (List.range (b.length + 1)).map (fun d => ⟨h, b, d⟩)

def itemList (g : Grammar) : List LR0Item :=
  g.productions.foldr
    (fun e acc => e.2.foldr (fun b acc2 => itemsOfBody e.1 b ++ acc2) acc) []

def stateUniv (g : Grammar) : Finset LR0Item :=
  (itemsOfBody (g.startStr ++ "\x27") [g.startStr] ++ itemList g.augmented).toFinset

/-- Fuel for the BFS: the number of distinct states is bounded by the
number of subsets of the item universe. -/
def fuelBfs (g : Grammar) : Nat :=
  2 ^ (stateUniv g).card + 1

/-- `Grammar.build_lr0_states()`: returns the state arena and the
transition table. -/
def build_lr0_states (g : Grammar) :
    List (List LR0Item) × List ((Nat × String) × Nat) :=
  let r := bfsRun g (fuelBfs g) (bfsInit g)
  (r.states, r.trans)

def findStateIdx : List (List LR0Item) → List LR0Item → Option Nat
  | [], _ => none
  | s :: rest, t =>
      if stateEq s t then some 0 else (findStateIdx rest t).map (fun n => n + 1)

/-- Body of the `for item in state:` loop of `build_slr_tables`,
threading (action table, goto table, conflict flag). -/
def slrProcessItem (g : Grammar) (augStart : String) (wm : FollowMap)
    (states : List (List LR0Item)) (idx : Nat) (state : List LR0Item)
    (acc : ActionTbl × GotoTbl × Bool) (item : LR0Item) :
    ActionTbl × GotoTbl × Bool :=
  if item.is_reduce_item then
    if item.head = augStart then (aset acc.1 (idx, "$") SlrAction.accept, acc.2)
    else
      let newA := SlrAction.reduce item.head item.body
      let r := (wm item.head).foldl
        (fun (p : ActionTbl × Bool) a =>
          let confHere :=
            match alookup p.1 (idx, a) with
            | some old => decide (old ≠ newA)
            | none => false
          (aset p.1 (idx, a) newA, p.2 || confHere))
        (acc.1, acc.2.2)
      (r.1, acc.2.1, r.2)
  else
    match item.next_symbol with
    | none => acc
    | some sym =>
        let target := g.goto state sym
        match findStateIdx states target with
        | none => acc
        | some tidx =>
            if sym ∈ g.terminals then
              let newA := SlrAction.shift tidx
              let confHere :=
                match alookup acc.1 (idx, sym) with
                | some old => decide (old ≠ newA)
                | none => false
              (aset acc.1 (idx, sym) newA, acc.2.1, acc.2.2 || confHere)
            else (acc.1, aset acc.2.1 (idx, sym) tidx, acc.2.2)

def slrStates (g : Grammar) (augStart : String) (wm : FollowMap)
    (states : List (List LR0Item)) :
    Nat → List (List LR0Item) → ActionTbl × GotoTbl × Bool →
    ActionTbl × GotoTbl × Bool
  | _, [], acc => acc
  | idx, st :: rest, acc =>
      slrStates g augStart wm states (idx + 1) rest
        (st.foldl (slrProcessItem g augStart wm states idx st) acc)

/-- The table-filling traversal of `build_slr_tables` (lines 168-198):
FIRST, FOLLOW, the LR(0) automaton, then the walk over all states.
`.2.2` is the conflict flag the traversal records. -/
def slrBuildCore (g : Grammar) : ActionTbl × GotoTbl × Bool :=
  let fm := calculate_first g
  let wm := calculate_follow g fm
  let states := (build_lr0_states g).1
  slrStates g g.augmented.startStr wm states 0 states ([], [], false)

/-- `Grammar.build_slr_tables()`: the updated grammar object together
with the returned pair (`none` standing for the Python `None, None`). -/
def build_slr_tables (g : Grammar) : Grammar × Option (ActionTbl × GotoTbl) :=
  let r := slrBuildCore g
  if g.has_slr_conflict || r.2.2 then
    ({ g with has_slr_conflict := true, action_table := [], goto_table := [] },
     none)
  else
    ({ g with action_table := r.1, goto_table := r.2.1 }, some (r.1, r.2.1))

/-- The per-terminal assignment loop of `build_ll1_table`: abort with
`none` as soon as the slot `(head, t)` is already filled (regardless of
its contents), else write the body. -/
def ll1Assign (head : String) (body : List String) :
    List String → LL1Tbl → Option LL1Tbl
  | [], tbl => some tbl
  | t :: ts, tbl =>
      if (alookup tbl (head, t)).isSome then none
      else ll1Assign head body ts (aset tbl (head, t) body)

def ll1Body (g : Grammar) (fm : FirstMap) (wm : FollowMap) (head : String)
    (body : List String) (tbl : LL1Tbl) : Option LL1Tbl :=
  let first := first_of_string g fm body
  match ll1Assign head body (lerase first "e") tbl with
  | none => none
  | some tbl1 =>
      if "e" ∈ first then ll1Assign head body (wm head) tbl1
      else some tbl1

def ll1Bodies (g : Grammar) (fm : FirstMap) (wm : FollowMap) (head : String) :
    List (List String) → LL1Tbl → Option LL1Tbl
  | [], tbl => some tbl
  | b :: bs, tbl =>
      match ll1Body g fm wm head b tbl with
      | none => none
      | some t => ll1Bodies g fm wm head bs t

def ll1Prods (g : Grammar) (fm : FirstMap) (wm : FollowMap) :
    List (String × List (List String)) → LL1Tbl → Option LL1Tbl
  | [], tbl => some tbl
  | e :: rest, tbl =>
      match ll1Bodies g fm wm e.1 e.2 tbl with
      | none => none
      | some t => ll1Prods g fm wm rest t

/-- `Grammar.build_ll1_table()`: `none` is the Python `None` (conflict). -/
def build_ll1_table (g : Grammar) : Option LL1Tbl :=
  let fm := calculate_first g
  let wm := calculate_follow g fm
  ll1Prods g fm wm g.productions []

/-- The loop of `slr_parse`, with the stack of state indices topmost
first and the input already carrying the appended end marker. -/
def slrGo (g : Grammar) : Nat → List Nat → List String → Bool
  | 0, _, _ => false
  | fuel + 1, stack, input =>
      match stack, input with
      | state :: _, current :: _ =>
          (match alookup g.action_table (state, current) with
           | none => false
           | some (SlrAction.shift t) => slrGo g fuel (t :: stack) input.tail
           | some (SlrAction.reduce hd body) =>
               match stack.drop body.length with
               | [] => false
               | top :: rest2 =>
                   match alookup g.goto_table (top, hd) with
                   | none => false
                   | some t => slrGo g fuel (t :: top :: rest2) input
           | some SlrAction.accept => true)
      | _, _ => false

def slr_parse (fuel : Nat) (tokens : List String) (g : Grammar) : Bool :=
  slrGo g fuel [0] (tokens ++ ["$"])

/-! ### The concrete grammars used by the claims -/

/-- `S -> a S | a` (the "conflict" example of the spec). -/
def gC1 : Grammar :=
  add_production (add_production {} "S" "a S") "S" "a"

/-- `S -> A` where the uppercase `A` never appears as a head. -/
def gC2 : Grammar :=
  add_production {} "S" "A"

/-- `S -> A b A`, `A -> e`: the first body symbol is nullable and equal
in value to the last body symbol. -/
def gC3 : Grammar :=
  add_production (add_production {} "S" "A b A") "A" "e"

/-- `S -> a` registered twice (duplicate identical productions). -/
def gC4 : Grammar :=
  add_production (add_production {} "S" "a") "S" "a"

/-- `S -> A | B`, `A -> x`, `B -> x`: a reduce/reduce conflict. -/
def gC5 : Grammar :=
  add_production (add_production (add_production (add_production {}
    "S" "A") "S" "B") "A" "x") "B" "x"

/-- The arithmetic grammar `E -> E + T | T`, `T -> T * F | F`,
`F -> ( E ) | id`. -/
def gArith : Grammar :=
  add_production (add_production (add_production (add_production
    (add_production (add_production {} "E" "E + T") "E" "T")
    "T" "T * F") "T" "F") "F" "( E )") "F" "id"

/-- A grammar value carrying only a hand-made action table, used to
exercise one step of the SLR driver. -/
def gEps : Grammar :=
  { action_table := [((0, "a"), SlrAction.reduce "A" ["e"])] }

/-- The total size of the FIRST (or FOLLOW) sets over the production
heads: the measure that strictly grows on every changing pass. -/
def totalFirst (g : Grammar) (m : FirstMap) : Nat :=
  ∑ h ∈ headsF g, (m h).length

/-- An upper bound on `totalFirst` throughout `calculate_first`. -/
def boundFirst (g : Grammar) : Nat :=
  (headsF g).card * ((allSyms g).toFinset.card + 1)

/-- An upper bound on `totalFirst` throughout `calculate_follow` (the
sets may also hold the end marker). -/
def boundFollow (g : Grammar) : Nat :=
  (headsF g).card * ((allSyms g).toFinset.card + 2)

/-- The measure of the breadth-first state exploration: it shrinks by
exactly one on every processed worklist entry. -/
def bfsMeasure (g : Grammar) (st : BfsState) : Nat :=
  2 ^ (stateUniv g).card + 1 - st.seen.length + st.queue.length

/-- The invariant of the breadth-first exploration: the discovered
states are pairwise distinct as sets, and all states (discovered or
queued) consist of items of the finite universe `stateUniv`. -/
def SeenInv (g : Grammar) (st : BfsState) : Prop :=
  (st.seen.map (fun p => p.1.toFinset)).Nodup ∧
  (∀ p ∈ st.seen, ∀ it ∈ p.1, it ∈ stateUniv g) ∧
  (∀ q ∈ st.queue, ∀ it ∈ q, it ∈ stateUniv g)

/-! ### List-set helper lemmas -/

theorem mem_sadd {l : List String} {s x : String} :
    x ∈ sadd l s ↔ x ∈ l ∨ x = s := by
  unfold sadd
  by_cases h : s ∈ l
  · rw [if_pos h]
    constructor
    · exact Or.inl
    · rintro (h2 | rfl)
      · exact h2
      · exact h
  · rw [if_neg h]
    simp

theorem mem_lunion {b a : List String} {x : String} :
    x ∈ lunion a b ↔ x ∈ a ∨ x ∈ b := by
  induction b generalizing a with
  | nil => simp [lunion]
  | cons s rest ih =>
      show x ∈ lunion (sadd a s) rest ↔ _
      rw [ih, mem_sadd, List.mem_cons]
      tauto

theorem mem_lerase {a : List String} {y x : String} :
    x ∈ lerase a y ↔ x ∈ a ∧ x ≠ y := by
  simp [lerase]

theorem sadd_length (l : List String) (s : String) :
    l.length ≤ (sadd l s).length := by
  unfold sadd
  by_cases h : s ∈ l <;> simp [h]

theorem sadd_length_lt {l : List String} {s : String} (h : s ∉ l) :
    l.length < (sadd l s).length := by
  simp [sadd, h]

theorem lunion_length (a b : List String) :
    a.length ≤ (lunion a b).length := by
  induction b generalizing a with
  | nil => exact le_rfl
  | cons s rest ih => exact le_trans (sadd_length a s) (ih (sadd a s))

theorem lunion_length_lt {a b : List String} (h : ∃ x ∈ b, x ∉ a) :
    a.length < (lunion a b).length := by
  induction b generalizing a with
  | nil => rcases h with ⟨x, hx, _⟩; cases hx
  | cons s rest ih =>
      by_cases hs : s ∈ a
      · have e : sadd a s = a := by simp [sadd, hs]
        have h2 : ∃ x ∈ rest, x ∉ a := by
          rcases h with ⟨x, hx, hxa⟩
          rcases List.mem_cons.mp hx with rfl | hxr
          · exact absurd hs hxa
          · exact ⟨x, hxr, hxa⟩
        show a.length < (lunion (sadd a s) rest).length
        rw [e]
        exact ih h2
      · calc a.length < (sadd a s).length := sadd_length_lt hs
          _ ≤ (lunion (sadd a s) rest).length := lunion_length _ _

theorem sadd_nodup {l : List String} (h : l.Nodup) (s : String) :
    (sadd l s).Nodup := by
  unfold sadd
  by_cases hs : s ∈ l
  · rw [if_pos hs]; exact h
  · rw [if_neg hs]
    simp [List.nodup_append, h, hs]

theorem lunion_nodup {a : List String} (h : a.Nodup) (b : List String) :
    (lunion a b).Nodup := by
  induction b generalizing a with
  | nil => exact h
  | cons s rest ih => exact ih (sadd_nodup h s)

theorem length_le_card_of_mem {α : Type} [DecidableEq α] {l : List α}
    {U : Finset α} (hn : l.Nodup) (hsub : ∀ x ∈ l, x ∈ U) :
    l.length ≤ U.card := by
  calc l.length = l.toFinset.card := (List.toFinset_card_of_nodup hn).symm
    _ ≤ U.card := Finset.card_le_card (fun x hx => hsub x (List.mem_toFinset.mp hx))

/-! ### Association-list helper lemmas -/

theorem alookup_cons_self {α β : Type} [DecidableEq α] (k : α) (v : β)
    (l : List (α × β)) : alookup ((k, v) :: l) k = some v := by
  simp [alookup, List.find?_cons_of_pos]

theorem alookup_cons_ne {α β : Type} [DecidableEq α] (p : α × β)
    (l : List (α × β)) (k : α) (h : p.1 ≠ k) :
    alookup (p :: l) k = alookup l k := by
  simp [alookup, List.find?_cons_of_neg, h]

theorem alookup_aset_self {α β : Type} [DecidableEq α] (l : List (α × β))
    (k : α) (v : β) : alookup (aset l k v) k = some v := by
  induction l with
  | nil => simp [aset, alookup_cons_self]
  | cons p rest ih =>
      by_cases h : p.1 = k
      · simp [aset, h, alookup_cons_self]
      · rw [aset, if_neg h, alookup_cons_ne _ _ _ h]
        exact ih

theorem alookup_aset_ne {α β : Type} [DecidableEq α] (l : List (α × β))
    (k k' : α) (v : β) (h : k ≠ k') :
    alookup (aset l k v) k' = alookup l k' := by
  induction l with
  | nil => simp [aset, alookup, List.find?_cons_of_neg, h]
  | cons p rest ih =>
      by_cases hp : p.1 = k
      · subst hp
        rw [aset, if_pos rfl, alookup_cons_ne _ _ _ h]
        exact (alookup_cons_ne (p.1, v) rest k' h).trans rfl
      · rw [aset, if_neg hp]
        by_cases hp2 : p.1 = k'
        · have hp3 : p = (k', p.2) := by rw [← hp2]
          rw [hp3, alookup_cons_self, alookup_cons_self]
        · rw [alookup_cons_ne _ _ _ hp2, alookup_cons_ne _ _ _ hp2]
          exact ih

/-! ### Claim theorems -/

/-- C1 (counterexample): for `S -> a S | a` the SLR build records NO
conflict and returns the tables (the claim says it must report a
conflict and yield the failure signal). FOLLOW(S) is just the end
marker, so the reduce action at the end marker never meets the shift
action at `a`. -/
theorem c1_slr_reports_no_conflict :
    (build_slr_tables gC1).1.has_slr_conflict = false ∧
    (build_slr_tables gC1).2 ≠ none := by
  refine ⟨by decide, by decide⟩

/-- C1 (amended): for `S -> a S | a` the SLR build succeeds with no
conflict, while the LL(1) build reports the collision on terminal `a`
in FIRST(S) and yields the no-table signal. -/
theorem c1_amended_slr_ok_ll1_none :
    (build_slr_tables gC1).1.has_slr_conflict = false ∧
    (build_slr_tables gC1).2 ≠ none ∧
    calculate_first gC1 "S" = ["a"] ∧
    build_ll1_table gC1 = none := by
  refine ⟨by decide, by decide, by decide, by decide⟩

/-- C2 (counterexample): for `S -> A`, where the uppercase `A` heads no
production, `calculate_first` puts the NonTerminal `A` into FIRST(S). -/
theorem c2_nonterminal_in_first :
    "A" ∈ calculate_first gC2 "S" ∧ "A" ∈ gC2.non_terminals := by
  refine ⟨by decide, by decide⟩

/-- C3 (code evaluated at the failing input): for `S -> A b A`,
`A -> e`, the scan of the body `A b A` stops at the non-nullable `b`,
yet the code adds the epsilon marker to FIRST(S), because the first
body symbol `A` is nullable and equal in value to the last body
symbol. -/
theorem c3_epsilon_added_on_early_stop :
    "e" ∈ calculate_first gC3 "S" := by decide

/-- C4 (counterexample): registering `S -> a` twice makes the LL(1)
build return the failure signal, although the second write carries the
same body as the slot already holds. -/
theorem c4_duplicate_production_fails :
    build_ll1_table gC4 = none := by decide

/-- C4 (amended): the LL(1) assignment loop aborts with the failure
signal whenever the slot for some scanned terminal is already filled,
regardless of which body it holds. -/
theorem c4_amended_filled_slot_aborts (head : String) (body : List String)
    (ts : List String) : ∀ (tbl : LL1Tbl) (t : String), t ∈ ts →
    (alookup tbl (head, t)).isSome = true → ll1Assign head body ts tbl = none := by
  induction ts with
  | nil => intro tbl t hmem _; cases hmem
  | cons t0 ts ih =>
      intro tbl t hmem hfull
      by_cases h0 : (alookup tbl (head, t0)).isSome = true
      · simp [ll1Assign, h0]
      · by_cases ht : t = t0
        · subst ht; exact absurd hfull h0
        · have hmem2 : t ∈ ts := by
            rcases List.mem_cons.mp hmem with h | h
            · exact absurd h ht
            · exact h
          have hne : ((head, t0) : String × String) ≠ (head, t) := by
            intro e
            exact ht (congrArg Prod.snd e).symm
          have hkeep :
              (alookup (aset tbl (head, t0) body) (head, t)).isSome = true := by
            rw [alookup_aset_ne _ _ _ _ hne]
            exact hfull
          simpa [ll1Assign, h0] using ih (aset tbl (head, t0) body) t hmem2 hkeep

/-- C4 (witness): a slot already holding exactly the body being written
still aborts the build. -/
theorem c4_amended_filled_slot_aborts_witness :
    ("a" ∈ (["a"] : List String)) ∧
    (alookup ([((("S", "a") : String × String), ["a"])] : LL1Tbl)
        (("S", "a") : String × String)).isSome = true ∧
    ll1Assign "S" ["a"] ["a"] [((("S", "a") : String × String), ["a"])] = none :=
  ⟨by decide, by decide,
    c4_amended_filled_slot_aborts "S" ["a"] ["a"] _ "a" (by decide) (by decide)⟩

/-- C5: whenever the SLR table-filling traversal records at least one
conflict, `build_slr_tables` returns the failure signal and both stored
tables are discarded (left empty). -/
theorem c5_conflict_yields_failure (g : Grammar)
    (h : (slrBuildCore g).2.2 = true) :
    (build_slr_tables g).2 = none ∧
    (build_slr_tables g).1.action_table = [] ∧
    (build_slr_tables g).1.goto_table = [] := by
  simp [build_slr_tables, h]

/-- C5 (witness): the reduce/reduce grammar `S -> A | B`, `A -> x`,
`B -> x` records a conflict and the build discards everything. -/
theorem c5_conflict_yields_failure_witness :
    (slrBuildCore gC5).2.2 = true ∧
    (build_slr_tables gC5).2 = none ∧
    (build_slr_tables gC5).1.action_table = [] ∧
    (build_slr_tables gC5).1.goto_table = [] :=
  ⟨by decide, (c5_conflict_yields_failure gC5 (by decide)).1,
    (c5_conflict_yields_failure gC5 (by decide)).2.1,
    (c5_conflict_yields_failure gC5 (by decide)).2.2⟩

/-- C6: for the arithmetic grammar the SLR build succeeds with no
conflict, the driver accepts `id + id * id` and rejects `id +`. -/
theorem c6_arith_slr_build_and_parse :
    (build_slr_tables gArith).1.has_slr_conflict = false ∧
    (build_slr_tables gArith).2.isSome = true ∧
    slr_parse 100 ["id", "+", "id", "*", "id"] (build_slr_tables gArith).1 = true ∧
    slr_parse 100 ["id", "+"] (build_slr_tables gArith).1 = false := by
  refine ⟨by decide, by decide, by decide, by decide⟩

/-- C10: a reduce step whose recorded body is the single-element
epsilon-marker sequence pops exactly one state index from the stack
(the epsilon marker counts as an ordinary body symbol). -/
theorem c10_epsilon_reduce_pops_one (g : Grammar) (fuel st : Nat)
    (rest : List Nat) (c : String) (cs : List String) (hd : String)
    (hA : alookup g.action_table (st, c) = some (SlrAction.reduce hd ["e"])) :
    (st :: rest).drop (["e"] : List String).length = rest ∧
    slrGo g (fuel + 1) (st :: rest) (c :: cs) =
      (match rest with
       | [] => false
       | top :: rest2 =>
           match alookup g.goto_table (top, hd) with
           | none => false
           | some t => slrGo g fuel (t :: top :: rest2) (c :: cs)) := by
  constructor
  · rfl
  · simp only [slrGo, hA, List.length_cons, List.length_nil,
      List.drop_succ_cons, List.drop_zero]

/-- C10 (witness): with a table whose only action is the epsilon
reduce, the driver pops the single stack entry and rejects on the now
empty stack. -/
theorem c10_epsilon_reduce_pops_one_witness :
    alookup gEps.action_table (0, "a") = some (SlrAction.reduce "A" ["e"]) ∧
    slrGo gEps 1 [0] ["a"] = false := by
  refine ⟨by decide, ?_⟩
  have h := c10_epsilon_reduce_pops_one gEps 0 0 [] "a" [] "A" (by decide)
  exact h.2

/-! ### The symbol classification of add_production (claim C8) -/

theorem classify_nts_mono (head : String) :
    ∀ (body : List String) (p : List String × List String) (x : String),
    x ∈ p.2 → x ∈ (body.foldl (classifySym head) p).2 := by
  intro body
  induction body with
  | nil => intro p x h; exact h
  | cons sym rest ih =>
      intro p x h
      refine ih (classifySym head p sym) x ?_
      unfold classifySym
      by_cases h1 : pyIsUpper sym = false ∧ sym ≠ "e"
      · rw [if_pos h1]; exact h
      · rw [if_neg h1]
        by_cases h2 : sym ≠ head
        · rw [if_pos h2]; exact mem_sadd.mpr (Or.inl h)
        · rw [if_neg h2]; exact h

theorem classify_e_mem_nts (head : String) (hhead : head ≠ "e") :
    ∀ (body : List String) (p : List String × List String), "e" ∈ body →
    "e" ∈ (body.foldl (classifySym head) p).2 := by
  intro body
  induction body with
  | nil => intro p h; cases h
  | cons sym rest ih =>
      intro p h
      by_cases hs : sym = "e"
      · subst hs
        refine classify_nts_mono head rest _ "e" ?_
        unfold classifySym
        rw [if_neg (by simp), if_pos (Ne.symm hhead)]
        exact mem_sadd.mpr (Or.inr rfl)
      · rcases List.mem_cons.mp h with h2 | h2
        · exact absurd h2.symm hs
        · exact ih (classifySym head p sym) h2

theorem classify_e_terminals (head : String) :
    ∀ (body : List String) (p : List String × List String),
    ("e" ∈ (body.foldl (classifySym head) p).1 ↔ "e" ∈ p.1) := by
  intro body
  induction body with
  | nil => intro p; exact Iff.rfl
  | cons sym rest ih =>
      intro p
      rw [List.foldl_cons, ih (classifySym head p sym)]
      unfold classifySym
      by_cases h1 : pyIsUpper sym = false ∧ sym ≠ "e"
      · rw [if_pos h1]
        show "e" ∈ sadd p.1 sym ↔ "e" ∈ p.1
        rw [mem_sadd]
        constructor
        · rintro (h2 | h2)
          · exact h2
          · exact absurd h2.symm h1.2
        · exact Or.inl
      · rw [if_neg h1]
        by_cases h2 : sym ≠ head
        · rw [if_pos h2]
        · rw [if_neg h2]

/-- C8: whenever the epsilon marker occurs in the tokenized body of an
`add_production` call whose head is not the epsilon marker itself, it is
inserted into the non-terminal set, and the terminal set never gains the
epsilon marker. -/
theorem c8_epsilon_into_non_terminals (g : Grammar) (head body_str : String)
    (hbody : "e" ∈ pySplit body_str) (hhead : head ≠ "e") :
    "e" ∈ (add_production g head body_str).non_terminals ∧
    ("e" ∈ (add_production g head body_str).terminals ↔ "e" ∈ g.terminals) := by
  constructor
  · exact classify_e_mem_nts head hhead (pySplit body_str) _ hbody
  · exact classify_e_terminals head (pySplit body_str) _

/-- C8 (witness): registering `S -> a e` from the empty grammar puts the
epsilon marker into the non-terminal set and not into the terminal set. -/
theorem c8_epsilon_into_non_terminals_witness :
    ("e" ∈ pySplit "a e") ∧ ("S" ≠ "e") ∧
    ("e" ∈ (add_production {} "S" "a e").non_terminals ∧
      ("e" ∈ (add_production {} "S" "a e").terminals ↔
        "e" ∈ Grammar.terminals {})) :=
  ⟨by decide, by decide,
    c8_epsilon_into_non_terminals {} "S" "a e" (by decide) (by decide)⟩

/-! ### Membership preservation through calculate_first (claims C2, C9) -/

theorem updF_union_pres (P : String → Prop) (m : FirstMap)
    (hm : ∀ h x, x ∈ m h → P x) (B : String) (tr : List String)
    (htr : ∀ x ∈ tr, P x) :
    ∀ h x, x ∈ (updF m B (lunion (m B) tr)) h → P x := by
  intro h x hx
  by_cases hh : h = B
  · subst hh
    rcases mem_lunion.mp (by simpa [updF] using hx) with h2 | h2
    · exact hm _ _ h2
    · exact htr _ h2
  · exact hm _ _ (by simpa [updF, hh] using hx)

theorem firstBody_pres (g : Grammar) (head lastSym : String)
    (P : String → Prop) (hPe : P "e") :
    ∀ (body : List String) (m : FirstMap) (ch : Bool),
    (∀ s ∈ body, (lookupProds g s).isNone = true → P s) →
    (∀ h x, x ∈ m h → P x) →
    ∀ h x, x ∈ (firstBody g head lastSym body m ch).1 h → P x := by
  intro body
  induction body with
  | nil => intro m ch _ hm; exact hm
  | cons sym rest ih =>
      intro m ch hsym hm h x hx
      simp only [firstBody] at hx
      by_cases h1 : (lookupProds g sym).isNone = true
      · rw [if_pos h1] at hx
        by_cases h2 : sym ∈ m head
        · rw [if_pos h2] at hx
          exact hm h x hx
        · rw [if_neg h2] at hx
          by_cases hh : h = head
          · subst hh
            rcases mem_sadd.mp (by simpa [updF] using hx) with h3 | he
            · exact hm _ _ h3
            · rw [he]
              exact hsym sym (List.mem_cons_self _ _) h1
          · exact hm _ _ (by simpa [updF, hh] using hx)
      · rw [if_neg h1] at hx
        have hm1 : ∀ h2 x2,
            x2 ∈ (updF m head (lunion (m head) (lerase (m sym) "e"))) h2 → P x2 :=
          updF_union_pres P m hm head _ (fun x2 hx2 => hm _ _ (mem_lerase.mp hx2).1)
        by_cases h2 : "e" ∉ m sym
        · rw [if_pos h2] at hx
          exact hm1 h x hx
        · rw [if_neg h2] at hx
          refine ih _ _ (fun s hs hn => hsym s (List.mem_cons_of_mem _ hs) hn) ?_ h x hx
          intro h2x x2 hx2
          by_cases hsl : sym = lastSym
          · rw [if_pos hsl] at hx2
            by_cases hh : h2x = head
            · rw [hh] at hx2
              have hx3 : x2 ∈ sadd (lunion (m head) (lerase (m sym) "e")) "e" := by
                simpa [updF] using hx2
              rcases mem_sadd.mp hx3 with h4 | he
              · rcases mem_lunion.mp h4 with h5 | h5
                · exact hm _ _ h5
                · exact hm _ _ (mem_lerase.mp h5).1
              · rw [he]
                exact hPe
            · have hx3 : x2 ∈ m h2x := by simpa [updF, hh] using hx2
              exact hm _ _ hx3
          · rw [if_neg hsl] at hx2
            exact hm1 h2x x2 hx2

theorem firstBodies_pres (g : Grammar) (head : String) (P : String → Prop)
    (hPe : P "e") :
    ∀ (bs : List (List String)) (m : FirstMap) (ch : Bool),
    (∀ b ∈ bs, ∀ s ∈ b, (lookupProds g s).isNone = true → P s) →
    (∀ h x, x ∈ m h → P x) →
    ∀ h x, x ∈ (firstBodies g head bs m ch).1 h → P x := by
  intro bs
  induction bs with
  | nil => intro m ch _ hm; exact hm
  | cons b rest ih =>
      intro m ch hb hm h x hx
      simp only [firstBodies] at hx
      exact ih _ _ (fun b2 hb2 => hb b2 (List.mem_cons_of_mem _ hb2))
        (firstBody_pres g head _ P hPe b _ _ (hb b (List.mem_cons_self _ _)) hm)
        h x hx

theorem firstProds_pres (g : Grammar) (P : String → Prop) (hPe : P "e") :
    ∀ (l : List (String × List (List String))) (m : FirstMap) (ch : Bool),
    (∀ e ∈ l, ∀ b ∈ e.2, ∀ s ∈ b, (lookupProds g s).isNone = true → P s) →
    (∀ h x, x ∈ m h → P x) →
    ∀ h x, x ∈ (firstProds g l m ch).1 h → P x := by
  intro l
  induction l with
  | nil => intro m ch _ hm; exact hm
  | cons e rest ih =>
      intro m ch he hm h x hx
      simp only [firstProds] at hx
      exact ih _ _ (fun e2 he2 => he e2 (List.mem_cons_of_mem _ he2))
        (firstBodies_pres g e.1 P hPe e.2 _ _ (he e (List.mem_cons_self _ _)) hm)
        h x hx

theorem firstRun_pres (g : Grammar) (P : String → Prop) (hPe : P "e")
    (hsyms : ∀ e ∈ g.productions, ∀ b ∈ e.2, ∀ s ∈ b,
      (lookupProds g s).isNone = true → P s) :
    ∀ (n : Nat) (m : FirstMap), (∀ h x, x ∈ m h → P x) →
    ∀ h x, x ∈ (firstRun g n m).1 h → P x := by
  intro n
  induction n with
  | zero => intro m hm; exact hm
  | succ n ih =>
      intro m hm h x hx
      simp only [firstRun] at hx
      by_cases hc : (passFirst g m).2 = true
      · rw [if_pos hc] at hx
        exact ih _ (firstProds_pres g P hPe g.productions m false hsyms hm) h x hx
      · rw [if_neg hc] at hx
        exact firstProds_pres g P hPe g.productions m false hsyms hm h x hx

theorem calculate_first_pres (g : Grammar) (P : String → Prop) (hPe : P "e")
    (hsyms : ∀ e ∈ g.productions, ∀ b ∈ e.2, ∀ s ∈ b,
      (lookupProds g s).isNone = true → P s) :
    ∀ h x, x ∈ calculate_first g h → P x := by
  intro h x hx
  simp only [calculate_first] at hx
  exact firstRun_pres g P hPe hsyms _ (fun _ => [])
    (fun h2 x2 hx2 => absurd hx2 (List.not_mem_nil x2)) h x hx

/-- C2 (amended): every member of a FIRST set is the epsilon marker or
a symbol with no productions (the code treats every symbol that heads no
production as a terminal, whatever its case). -/
theorem c2_amended_first_not_heads (g : Grammar) (X x : String)
    (hx : x ∈ calculate_first g X) : x = "e" ∨ lookupProds g x = none :=
  calculate_first_pres g (fun y => y = "e" ∨ lookupProds g y = none)
    (Or.inl rfl)
    (fun _ _ _ _ _ _ hn => Or.inr (Option.isNone_iff_eq_none.mp hn))
    X x hx

/-- C2 (witness): the uppercase non-head `A` of `S -> A` lands in
FIRST(S) and indeed heads no production. -/
theorem c2_amended_first_not_heads_witness :
    ("A" ∈ calculate_first gC2 "S") ∧
    ("A" = "e" ∨ lookupProds gC2 "A" = none) :=
  ⟨by decide, c2_amended_first_not_heads gC2 "S" "A" (by decide)⟩

/-! ### Membership preservation through calculate_follow (claims C7, C9) -/

theorem followBody_pres (g : Grammar) (fm : FirstMap) (head : String)
    (P : String → Prop) :
    ∀ (body : List String) (m : FollowMap) (ch : Bool),
    (∀ beta2 : List String, beta2 <:+ body →
      ∀ x ∈ first_of_string g fm beta2, x ≠ "e" → P x) →
    (∀ h x, x ∈ m h → P x) →
    ∀ h x, x ∈ (followBody g fm head body m ch).1 h → P x := by
  intro body
  induction body with
  | nil => intro m ch _ hm; exact hm
  | cons B beta ih =>
      intro m ch hfos hm h x hx
      simp only [followBody] at hx
      have hsufx : ∀ b2 : List String, b2 <:+ beta →
          ∀ x2 ∈ first_of_string g fm b2, x2 ≠ "e" → P x2 :=
        fun b2 hb2 => hfos b2 (hb2.trans (List.suffix_cons B beta))
      by_cases h1 : (lookupProds g B).isSome = true
      case neg =>
        rw [if_neg h1] at hx
        exact ih _ _ hsufx hm h x hx
      case pos =>
        rw [if_pos h1] at hx
        have htr : ∀ x2 ∈ lerase (first_of_string g fm beta) "e", P x2 := by
          intro x2 hx2
          exact hfos beta (List.suffix_cons B beta) x2 (mem_lerase.mp hx2).1
            (mem_lerase.mp hx2).2
        by_cases c1 : lsub (lerase (first_of_string g fm beta) "e") (m B) = true
        · rw [if_pos c1] at hx
          dsimp only at hx
          by_cases c2 : "e" ∈ first_of_string g fm beta ∨ beta = []
          · rw [if_pos c2] at hx
            by_cases c3 : lsub (m head) (m B) = true
            · rw [if_pos c3] at hx
              dsimp only at hx
              exact ih _ _ hsufx hm h x hx
            · rw [if_neg c3] at hx
              dsimp only at hx
              exact ih _ _ hsufx
                (updF_union_pres P m hm B (m head) (fun x2 hx2 => hm _ _ hx2))
                h x hx
          · rw [if_neg c2] at hx
            dsimp only at hx
            exact ih _ _ hsufx hm h x hx
        · rw [if_neg c1] at hx
          dsimp only at hx
          have hm1 : ∀ h2 x2,
              x2 ∈ (updF m B
                (lunion (m B) (lerase (first_of_string g fm beta) "e"))) h2 →
              P x2 :=
            updF_union_pres P m hm B _ htr
          by_cases c2 : "e" ∈ first_of_string g fm beta ∨ beta = []
          · rw [if_pos c2] at hx
            by_cases c3 : lsub
                ((updF m B (lunion (m B) (lerase (first_of_string g fm beta) "e"))) head)
                ((updF m B (lunion (m B) (lerase (first_of_string g fm beta) "e"))) B) =
                true
            · rw [if_pos c3] at hx
              dsimp only at hx
              exact ih _ _ hsufx hm1 h x hx
            · rw [if_neg c3] at hx
              dsimp only at hx
              exact ih _ _ hsufx
                (updF_union_pres P _ hm1 B _ (fun x2 hx2 => hm1 _ _ hx2)) h x hx
          · rw [if_neg c2] at hx
            dsimp only at hx
            exact ih _ _ hsufx hm1 h x hx

theorem followBodies_pres (g : Grammar) (fm : FirstMap) (head : String)
    (P : String → Prop) :
    ∀ (bs : List (List String)) (m : FollowMap) (ch : Bool),
    (∀ b ∈ bs, ∀ beta2 : List String, beta2 <:+ b →
      ∀ x ∈ first_of_string g fm beta2, x ≠ "e" → P x) →
    (∀ h x, x ∈ m h → P x) →
    ∀ h x, x ∈ (followBodies g fm head bs m ch).1 h → P x := by
  intro bs
  induction bs with
  | nil => intro m ch _ hm; exact hm
  | cons b rest ih =>
      intro m ch hb hm h x hx
      simp only [followBodies] at hx
      exact ih _ _ (fun b2 hb2 => hb b2 (List.mem_cons_of_mem _ hb2))
        (followBody_pres g fm head P b _ _ (hb b (List.mem_cons_self _ _)) hm)
        h x hx

theorem followProds_pres (g : Grammar) (fm : FirstMap) (P : String → Prop) :
    ∀ (l : List (String × List (List String))) (m : FollowMap) (ch : Bool),
    (∀ e ∈ l, ∀ b ∈ e.2, ∀ beta2 : List String, beta2 <:+ b →
      ∀ x ∈ first_of_string g fm beta2, x ≠ "e" → P x) →
    (∀ h x, x ∈ m h → P x) →
    ∀ h x, x ∈ (followProds g fm l m ch).1 h → P x := by
  intro l
  induction l with
  | nil => intro m ch _ hm; exact hm
  | cons e rest ih =>
      intro m ch he hm h x hx
      simp only [followProds] at hx
      exact ih _ _ (fun e2 he2 => he e2 (List.mem_cons_of_mem _ he2))
        (followBodies_pres g fm e.1 P e.2 _ _ (he e (List.mem_cons_self _ _)) hm)
        h x hx

theorem followRun_pres (g : Grammar) (fm : FirstMap) (P : String → Prop)
    (hfos : ∀ e ∈ g.productions, ∀ b ∈ e.2, ∀ beta2 : List String, beta2 <:+ b →
      ∀ x ∈ first_of_string g fm beta2, x ≠ "e" → P x) :
    ∀ (n : Nat) (m : FollowMap), (∀ h x, x ∈ m h → P x) →
    ∀ h x, x ∈ (followRun g fm n m).1 h → P x := by
  intro n
  induction n with
  | zero => intro m hm; exact hm
  | succ n ih =>
      intro m hm h x hx
      simp only [followRun] at hx
      by_cases hc : (passFollow g fm m).2 = true
      · rw [if_pos hc] at hx
        exact ih _ (followProds_pres g fm P g.productions m false hfos hm) h x hx
      · rw [if_neg hc] at hx
        exact followProds_pres g fm P g.productions m false hfos hm h x hx

theorem calculate_follow_pres (g : Grammar) (fm : FirstMap) (P : String → Prop)
    (hfos : ∀ e ∈ g.productions, ∀ b ∈ e.2, ∀ beta2 : List String, beta2 <:+ b →
      ∀ x ∈ first_of_string g fm beta2, x ≠ "e" → P x)
    (hdollar : P "$") :
    ∀ h x, x ∈ calculate_follow g fm h → P x := by
  intro h x hx
  simp only [calculate_follow] at hx
  refine followRun_pres g fm P hfos _ (followInit g) ?_ h x hx
  intro h2 x2 hx2
  unfold followInit at hx2
  by_cases hs : g.start_symbol = some h2
  · rw [if_pos hs] at hx2
    rcases List.mem_singleton.mp hx2 with rfl
    exact hdollar
  · rw [if_neg hs] at hx2
    cases hx2

/-- C7: the FOLLOW sets computed by `calculate_follow` never contain the
epsilon marker, for every grammar and every FIRST map. -/
theorem c7_follow_never_contains_epsilon (g : Grammar) (fm : FirstMap)
    (A : String) : "e" ∉ calculate_follow g fm A := by
  intro hx
  exact (calculate_follow_pres g fm (fun y => y ≠ "e")
    (fun _ _ _ _ _ _ _ _ hne => hne) (by decide) A "e" hx) rfl

/-- C7 (witness): instantiation at the `S -> a S | a` grammar. -/
theorem c7_follow_never_contains_epsilon_witness :
    "e" ∉ calculate_follow gC1 (calculate_first gC1) "S" :=
  c7_follow_never_contains_epsilon gC1 (calculate_first gC1) "S"

/-! ### Termination of the FIRST fixpoint loop (claim C9) -/

theorem mem_bodies_foldr {x : String} :
    ∀ (bs : List (List String)) (acc : List String),
    ((∃ b ∈ bs, x ∈ b) ∨ x ∈ acc) →
    x ∈ bs.foldr (fun b2 acc2 => b2 ++ acc2) acc := by
  intro bs
  induction bs with
  | nil =>
      intro acc h
      rcases h with ⟨b, hb, _⟩ | h
      · cases hb
      · exact h
  | cons b0 rest ih =>
      intro acc h
      show x ∈ b0 ++ rest.foldr (fun b2 acc2 => b2 ++ acc2) acc
      rw [List.mem_append]
      rcases h with ⟨b, hb, hx⟩ | h
      · rcases List.mem_cons.mp hb with rfl | hb2
        · exact Or.inl hx
        · exact Or.inr (ih acc (Or.inl ⟨b, hb2, hx⟩))
      · exact Or.inr (ih acc (Or.inr h))

theorem mem_allSyms {g : Grammar} {e : String × List (List String)}
    {b : List String} {x : String} (he : e ∈ g.productions) (hb : b ∈ e.2)
    (hx : x ∈ b) : x ∈ allSyms g := by
  unfold allSyms
  have main : ∀ (l : List (String × List (List String))), e ∈ l →
      x ∈ l.foldr (fun e2 acc => e2.2.foldr (fun b2 acc2 => b2 ++ acc2) acc) [] := by
    intro l
    induction l with
    | nil => intro he2; cases he2
    | cons p rest ih =>
        intro he2
        show x ∈ p.2.foldr (fun b2 acc2 => b2 ++ acc2)
          (rest.foldr (fun e2 acc => e2.2.foldr (fun b2 acc2 => b2 ++ acc2) acc) [])
        rcases List.mem_cons.mp he2 with rfl | h2
        · exact mem_bodies_foldr e.2 _ (Or.inl ⟨b, hb, hx⟩)
        · exact mem_bodies_foldr p.2 _ (Or.inr (ih h2))
  exact main g.productions he

theorem mem_headsF {g : Grammar} {e : String × List (List String)}
    (he : e ∈ g.productions) : e.1 ∈ headsF g :=
  List.mem_toFinset.mpr (List.mem_map_of_mem (fun p => p.1) he)

theorem alookup_isSome_mem_keys {α β : Type} [DecidableEq α] :
    ∀ (l : List (α × β)) (k : α), (alookup l k).isSome = true →
    k ∈ l.map (fun p => p.1) := by
  intro l
  induction l with
  | nil => intro k h; simp [alookup] at h
  | cons p rest ih =>
      intro k h
      by_cases hp : p.1 = k
      · exact List.mem_map.mpr ⟨p, List.mem_cons_self _ _, hp⟩
      · rw [alookup_cons_ne _ _ _ hp] at h
        exact List.mem_cons_of_mem _ (ih k h)

theorem mem_headsF_of_lookup {g : Grammar} {s : String}
    (h : (lookupProds g s).isSome = true) : s ∈ headsF g :=
  List.mem_toFinset.mpr (alookup_isSome_mem_keys g.productions s h)

theorem updF_len_mono {m : FirstMap} {k : String} {v : List String}
    (hk : (m k).length ≤ v.length) (h : String) :
    (m h).length ≤ ((updF m k v) h).length := by
  unfold updF
  by_cases hh : h = k
  · rw [if_pos hh, hh]
    exact hk
  · rw [if_neg hh]

theorem updF_nodup {m : FirstMap} (hm : ∀ h, (m h).Nodup) {k : String}
    {v : List String} (hv : v.Nodup) : ∀ h, ((updF m k v) h).Nodup := by
  intro h
  unfold updF
  by_cases hh : h = k
  · rw [if_pos hh]; exact hv
  · rw [if_neg hh]; exact hm h

theorem totalFirst_mono (g : Grammar) {m m2 : FirstMap}
    (h : ∀ s, (m s).length ≤ (m2 s).length) :
    totalFirst g m ≤ totalFirst g m2 :=
  Finset.sum_le_sum (fun i _ => h i)

theorem totalFirst_lt (g : Grammar) {m m2 : FirstMap} {k : String}
    (hk : k ∈ headsF g) (h : ∀ s, (m s).length ≤ (m2 s).length)
    (hstrict : (m k).length < (m2 k).length) :
    totalFirst g m < totalFirst g m2 :=
  Finset.sum_lt_sum (fun i _ => h i) ⟨k, hk, hstrict⟩

theorem totalFirst_le (g : Grammar) (m : FirstMap)
    (hn : ∀ h, (m h).Nodup)
    (hu : ∀ h x, x ∈ m h → x ∈ insert "e" (allSyms g).toFinset) :
    totalFirst g m ≤ boundFirst g := by
  unfold totalFirst boundFirst
  calc ∑ h ∈ headsF g, (m h).length
      ≤ ∑ _h ∈ headsF g, (insert "e" (allSyms g).toFinset).card :=
        Finset.sum_le_sum (fun i _ => length_le_card_of_mem (hn i) (hu i))
    _ = (headsF g).card * (insert "e" (allSyms g).toFinset).card := by
        rw [Finset.sum_const, smul_eq_mul]
    _ ≤ (headsF g).card * ((allSyms g).toFinset.card + 1) :=
        Nat.mul_le_mul_left _ (Finset.card_insert_le _ _)

theorem firstBody_len_mono (g : Grammar) (head lastSym : String) :
    ∀ (body : List String) (m : FirstMap) (ch : Bool) (h : String),
    (m h).length ≤ ((firstBody g head lastSym body m ch).1 h).length := by
  intro body
  induction body with
  | nil => intro m ch h; exact le_rfl
  | cons sym rest ih =>
      intro m ch h
      simp only [firstBody]
      by_cases h1 : (lookupProds g sym).isNone = true
      · rw [if_pos h1]
        by_cases h2 : sym ∈ m head
        · rw [if_pos h2]
        · rw [if_neg h2]
          exact updF_len_mono (sadd_length _ _) h
      · rw [if_neg h1]
        by_cases h2 : "e" ∉ m sym
        · rw [if_pos h2]
          exact updF_len_mono (lunion_length _ _) h
        · rw [if_neg h2]
          by_cases hsl : sym = lastSym
          · rw [if_pos hsl]
            exact le_trans (updF_len_mono (lunion_length _ _) h)
              (le_trans (updF_len_mono (sadd_length _ _) h) (ih _ _ h))
          · rw [if_neg hsl]
            exact le_trans (updF_len_mono (lunion_length _ _) h) (ih _ _ h)

theorem firstBodies_len_mono (g : Grammar) (head : String) :
    ∀ (bs : List (List String)) (m : FirstMap) (ch : Bool) (h : String),
    (m h).length ≤ ((firstBodies g head bs m ch).1 h).length := by
  intro bs
  induction bs with
  | nil => intro m ch h; exact le_rfl
  | cons b rest ih =>
      intro m ch h
      simp only [firstBodies]
      exact le_trans (firstBody_len_mono g head _ b m ch h) (ih _ _ h)

theorem firstProds_len_mono (g : Grammar) :
    ∀ (l : List (String × List (List String))) (m : FirstMap) (ch : Bool)
    (h : String),
    (m h).length ≤ ((firstProds g l m ch).1 h).length := by
  intro l
  induction l with
  | nil => intro m ch h; exact le_rfl
  | cons e rest ih =>
      intro m ch h
      simp only [firstProds]
      exact le_trans (firstBodies_len_mono g e.1 e.2 m ch h) (ih _ _ h)

theorem firstBody_nodup (g : Grammar) (head lastSym : String) :
    ∀ (body : List String) (m : FirstMap) (ch : Bool),
    (∀ h, (m h).Nodup) → ∀ h, ((firstBody g head lastSym body m ch).1 h).Nodup := by
  intro body
  induction body with
  | nil => intro m ch hm; exact hm
  | cons sym rest ih =>
      intro m ch hm h
      simp only [firstBody]
      by_cases h1 : (lookupProds g sym).isNone = true
      · rw [if_pos h1]
        by_cases h2 : sym ∈ m head
        · rw [if_pos h2]; exact hm h
        · rw [if_neg h2]
          exact updF_nodup hm (sadd_nodup (hm head) sym) h
      · rw [if_neg h1]
        have hm1 : ∀ h2, ((updF m head
            (lunion (m head) (lerase (m sym) "e"))) h2).Nodup :=
          updF_nodup hm (lunion_nodup (hm head) _)
        by_cases h2 : "e" ∉ m sym
        · rw [if_pos h2]; exact hm1 h
        · rw [if_neg h2]
          refine ih _ _ ?_ h
          intro h3
          by_cases hsl : sym = lastSym
          · rw [if_pos hsl]
            exact updF_nodup hm1 (sadd_nodup (hm1 head) "e") h3
          · rw [if_neg hsl]
            exact hm1 h3

theorem firstBodies_nodup (g : Grammar) (head : String) :
    ∀ (bs : List (List String)) (m : FirstMap) (ch : Bool),
    (∀ h, (m h).Nodup) → ∀ h, ((firstBodies g head bs m ch).1 h).Nodup := by
  intro bs
  induction bs with
  | nil => intro m ch hm; exact hm
  | cons b rest ih =>
      intro m ch hm
      simp only [firstBodies]
      exact ih _ _ (firstBody_nodup g head _ b m ch hm)

theorem firstProds_nodup (g : Grammar) :
    ∀ (l : List (String × List (List String))) (m : FirstMap) (ch : Bool),
    (∀ h, (m h).Nodup) → ∀ h, ((firstProds g l m ch).1 h).Nodup := by
  intro l
  induction l with
  | nil => intro m ch hm; exact hm
  | cons e rest ih =>
      intro m ch hm
      simp only [firstProds]
      exact ih _ _ (firstBodies_nodup g e.1 e.2 m ch hm)

theorem firstBody_grow (g : Grammar) (head lastSym : String)
    (hhead : head ∈ headsF g) :
    ∀ (body : List String) (m : FirstMap) (ch : Bool),
    (firstBody g head lastSym body m ch).2 = true →
    ch = true ∨ totalFirst g m < totalFirst g (firstBody g head lastSym body m ch).1 := by
  intro body
  induction body with
  | nil => intro m ch h; exact Or.inl h
  | cons sym rest ih =>
      intro m ch hres
      simp only [firstBody] at hres ⊢
      by_cases h1 : (lookupProds g sym).isNone = true
      · rw [if_pos h1] at hres ⊢
        by_cases h2 : sym ∈ m head
        · rw [if_pos h2] at hres ⊢
          exact Or.inl hres
        · rw [if_neg h2] at hres ⊢
          refine Or.inr (totalFirst_lt g hhead
            (fun s => updF_len_mono (sadd_length _ _) s) ?_)
          have hlt := sadd_length_lt h2
          simpa [updF] using hlt
      · rw [if_neg h1] at hres ⊢
        by_cases h2 : "e" ∉ m sym
        · rw [if_pos h2] at hres ⊢
          exact Or.inl hres
        · rw [if_neg h2] at hres ⊢
          have hM2 : ∀ s, (m s).length ≤
              ((if sym = lastSym then
                  updF (updF m head (lunion (m head) (lerase (m sym) "e"))) head
                    (sadd ((updF m head (lunion (m head) (lerase (m sym) "e"))) head) "e")
                else updF m head (lunion (m head) (lerase (m sym) "e"))) s).length := by
            intro s
            by_cases hsl : sym = lastSym
            · rw [if_pos hsl]
              exact le_trans (updF_len_mono (lunion_length _ _) s)
                (updF_len_mono (sadd_length _ _) s)
            · rw [if_neg hsl]
              exact updF_len_mono (lunion_length _ _) s
          rcases ih _ _ hres with hch | hlt
          · rcases Bool.or_eq_true_iff.mp hch with hc | hd
            · exact Or.inl hc
            · refine Or.inr (lt_of_lt_of_le
                (totalFirst_lt g hhead hM2 (of_decide_eq_true hd))
                (totalFirst_mono g (fun s => firstBody_len_mono g head lastSym rest _ _ s)))
          · exact Or.inr (lt_of_le_of_lt (totalFirst_mono g hM2) hlt)

theorem firstBodies_grow (g : Grammar) (head : String)
    (hhead : head ∈ headsF g) :
    ∀ (bs : List (List String)) (m : FirstMap) (ch : Bool),
    (firstBodies g head bs m ch).2 = true →
    ch = true ∨ totalFirst g m < totalFirst g (firstBodies g head bs m ch).1 := by
  intro bs
  induction bs with
  | nil => intro m ch h; exact Or.inl h
  | cons b rest ih =>
      intro m ch hres
      simp only [firstBodies] at hres ⊢
      rcases ih _ _ hres with hch | hlt
      · rcases firstBody_grow g head _ hhead b m ch hch with hc | hlt2
        · exact Or.inl hc
        · exact Or.inr (lt_of_lt_of_le hlt2
            (totalFirst_mono g (fun s => firstBodies_len_mono g head rest _ _ s)))
      · exact Or.inr (lt_of_le_of_lt
          (totalFirst_mono g (fun s => firstBody_len_mono g head _ b m ch s)) hlt)

theorem firstProds_grow (g : Grammar) :
    ∀ (l : List (String × List (List String))),
    (∀ e ∈ l, e.1 ∈ headsF g) →
    ∀ (m : FirstMap) (ch : Bool),
    (firstProds g l m ch).2 = true →
    ch = true ∨ totalFirst g m < totalFirst g (firstProds g l m ch).1 := by
  intro l
  induction l with
  | nil => intro _ m ch h; exact Or.inl h
  | cons e rest ih =>
      intro hl m ch hres
      simp only [firstProds] at hres ⊢
      rcases ih (fun e2 he2 => hl e2 (List.mem_cons_of_mem _ he2)) _ _ hres with hch | hlt
      · rcases firstBodies_grow g e.1 (hl e (List.mem_cons_self _ _)) e.2 m ch hch with hc | hlt2
        · exact Or.inl hc
        · exact Or.inr (lt_of_lt_of_le hlt2
            (totalFirst_mono g (fun s => firstProds_len_mono g rest _ _ s)))
      · exact Or.inr (lt_of_le_of_lt
          (totalFirst_mono g (fun s => firstBodies_len_mono g e.1 e.2 m ch s)) hlt)

theorem passFirst_grow (g : Grammar) (m : FirstMap)
    (h : (passFirst g m).2 = true) :
    totalFirst g m < totalFirst g (passFirst g m).1 := by
  rcases firstProds_grow g g.productions (fun e he => mem_headsF he) m false h with hc | hlt
  · cases hc
  · exact hlt

theorem firstUniv_pres (g : Grammar) :
    ∀ (m : FirstMap), (∀ h x, x ∈ m h → x ∈ insert "e" (allSyms g).toFinset) →
    ∀ h x, x ∈ (passFirst g m).1 h → x ∈ insert "e" (allSyms g).toFinset := by
  intro m hm
  exact firstProds_pres g (fun y => y ∈ insert "e" (allSyms g).toFinset)
    (Finset.mem_insert_self _ _) g.productions m false
    (fun e he b hb s hs _ =>
      Finset.mem_insert_of_mem (List.mem_toFinset.mpr (mem_allSyms he hb hs)))
    hm

theorem firstRun_term (g : Grammar) :
    ∀ (k : Nat) (m : FirstMap),
    (∀ h, (m h).Nodup) →
    (∀ h x, x ∈ m h → x ∈ insert "e" (allSyms g).toFinset) →
    boundFirst g + 1 - totalFirst g m ≤ k →
    ∃ n, (firstRun g n m).2 = false := by
  intro k
  induction k with
  | zero =>
      intro m hn hu hk
      have h1 : totalFirst g m ≤ boundFirst g := totalFirst_le g m hn hu
      exact absurd hk (by omega)
  | succ k ih =>
      intro m hn hu hk
      by_cases hc : (passFirst g m).2 = true
      · have hgrow : totalFirst g m < totalFirst g (passFirst g m).1 :=
          passFirst_grow g m hc
        have hn2 : ∀ h, ((passFirst g m).1 h).Nodup :=
          firstProds_nodup g g.productions m false hn
        have hu2 : ∀ h x, x ∈ (passFirst g m).1 h →
            x ∈ insert "e" (allSyms g).toFinset := firstUniv_pres g m hu
        have hb2 : totalFirst g (passFirst g m).1 ≤ boundFirst g :=
          totalFirst_le g _ hn2 hu2
        rcases ih (passFirst g m).1 hn2 hu2 (by omega) with ⟨n, hstop⟩
        refine ⟨n + 1, ?_⟩
        simp only [firstRun]
        rw [if_pos hc]
        exact hstop
      · refine ⟨1, ?_⟩
        simp only [firstRun]
        rw [if_neg hc]

/-! ### Termination of the FOLLOW fixpoint loop (claim C9) -/

theorem exists_of_lsub_false {a b : List String} (h : ¬ lsub a b = true) :
    ∃ x ∈ a, x ∉ b := by
  by_contra hc
  push_neg at hc
  apply h
  unfold lsub
  rw [List.all_eq_true]
  intro x hx
  exact decide_eq_true (hc x hx)

theorem fosGo_univ (g : Grammar) (fm : FirstMap) (Q : String → Prop)
    (hfm : ∀ h x, x ∈ fm h → Q x) (hQe : Q "e") :
    ∀ (beta acc : List String), (∀ s ∈ beta, Q s) → (∀ x ∈ acc, Q x) →
    ∀ x ∈ fosGo g fm acc beta, Q x := by
  intro beta
  induction beta with
  | nil =>
      intro acc _ hacc x hx
      rcases mem_sadd.mp hx with h | he
      · exact hacc x h
      · rw [he]; exact hQe
  | cons sym rest ih =>
      intro acc hb hacc x hx
      simp only [fosGo] at hx
      by_cases h1 : (lookupProds g sym).isNone = true
      · rw [if_pos h1] at hx
        rcases mem_sadd.mp hx with h | he
        · exact hacc x h
        · rw [he]; exact hb sym (List.mem_cons_self _ _)
      · rw [if_neg h1] at hx
        have hacc2 : ∀ x2 ∈ lunion acc (lerase (fm sym) "e"), Q x2 := by
          intro x2 hx2
          rcases mem_lunion.mp hx2 with h | h
          · exact hacc x2 h
          · exact hfm sym x2 (mem_lerase.mp h).1
        by_cases h2 : "e" ∈ fm sym
        · rw [if_pos h2] at hx
          exact ih _ (fun s hs => hb s (List.mem_cons_of_mem _ hs)) hacc2 x hx
        · rw [if_neg h2] at hx
          exact hacc2 x hx

theorem first_of_string_univ (g : Grammar) (fm : FirstMap) (Q : String → Prop)
    (hfm : ∀ h x, x ∈ fm h → Q x) (hQe : Q "e")
    (beta : List String) (hb : ∀ s ∈ beta, Q s) :
    ∀ x ∈ first_of_string g fm beta, Q x := by
  intro x hx
  cases beta with
  | nil =>
      simp only [first_of_string] at hx
      have he := List.mem_singleton.mp hx
      rw [he]
      exact hQe
  | cons s rest =>
      simp only [first_of_string] at hx
      exact fosGo_univ g fm Q hfm hQe (s :: rest) [] hb
        (fun x2 hx2 => absurd hx2 (List.not_mem_nil x2)) x hx

theorem followBody_len_mono (g : Grammar) (fm : FirstMap) (head : String) :
    ∀ (body : List String) (m : FollowMap) (ch : Bool) (h : String),
    (m h).length ≤ ((followBody g fm head body m ch).1 h).length := by
  intro body
  induction body with
  | nil => intro m ch h; exact le_rfl
  | cons B beta ih =>
      intro m ch h
      simp only [followBody]
      by_cases h1 : (lookupProds g B).isSome = true
      case neg => rw [if_neg h1]; exact ih _ _ h
      case pos =>
        rw [if_pos h1]
        by_cases c1 : lsub (lerase (first_of_string g fm beta) "e") (m B) = true
        · rw [if_pos c1]
          dsimp only
          by_cases c2 : "e" ∈ first_of_string g fm beta ∨ beta = []
          · rw [if_pos c2]
            by_cases c3 : lsub (m head) (m B) = true
            · rw [if_pos c3]
              dsimp only
              exact ih _ _ h
            · rw [if_neg c3]
              dsimp only
              exact le_trans (updF_len_mono (lunion_length _ _) h) (ih _ _ h)
          · rw [if_neg c2]
            dsimp only
            exact ih _ _ h
        · rw [if_neg c1]
          dsimp only
          by_cases c2 : "e" ∈ first_of_string g fm beta ∨ beta = []
          · rw [if_pos c2]
            by_cases c3 : lsub
                ((updF m B (lunion (m B) (lerase (first_of_string g fm beta) "e"))) head)
                ((updF m B (lunion (m B) (lerase (first_of_string g fm beta) "e"))) B) =
                true
            · rw [if_pos c3]
              dsimp only
              exact le_trans (updF_len_mono (lunion_length _ _) h) (ih _ _ h)
            · rw [if_neg c3]
              dsimp only
              exact le_trans (updF_len_mono (lunion_length _ _) h)
                (le_trans (updF_len_mono (lunion_length _ _) h) (ih _ _ h))
          · rw [if_neg c2]
            dsimp only
            exact le_trans (updF_len_mono (lunion_length _ _) h) (ih _ _ h)

theorem followBody_nodup (g : Grammar) (fm : FirstMap) (head : String) :
    ∀ (body : List String) (m : FollowMap) (ch : Bool),
    (∀ h, (m h).Nodup) → ∀ h, ((followBody g fm head body m ch).1 h).Nodup := by
  intro body
  induction body with
  | nil => intro m ch hm; exact hm
  | cons B beta ih =>
      intro m ch hm
      simp only [followBody]
      by_cases h1 : (lookupProds g B).isSome = true
      case neg => rw [if_neg h1]; exact ih _ _ hm
      case pos =>
        rw [if_pos h1]
        by_cases c1 : lsub (lerase (first_of_string g fm beta) "e") (m B) = true
        · rw [if_pos c1]
          dsimp only
          by_cases c2 : "e" ∈ first_of_string g fm beta ∨ beta = []
          · rw [if_pos c2]
            by_cases c3 : lsub (m head) (m B) = true
            · rw [if_pos c3]
              dsimp only
              exact ih _ _ hm
            · rw [if_neg c3]
              dsimp only
              exact ih _ _ (updF_nodup hm (lunion_nodup (hm B) _))
          · rw [if_neg c2]
            dsimp only
            exact ih _ _ hm
        · rw [if_neg c1]
          dsimp only
          have hm1 : ∀ h2, ((updF m B
              (lunion (m B) (lerase (first_of_string g fm beta) "e"))) h2).Nodup :=
            updF_nodup hm (lunion_nodup (hm B) _)
          by_cases c2 : "e" ∈ first_of_string g fm beta ∨ beta = []
          · rw [if_pos c2]
            by_cases c3 : lsub
                ((updF m B (lunion (m B) (lerase (first_of_string g fm beta) "e"))) head)
                ((updF m B (lunion (m B) (lerase (first_of_string g fm beta) "e"))) B) =
                true
            · rw [if_pos c3]
              dsimp only
              exact ih _ _ hm1
            · rw [if_neg c3]
              dsimp only
              exact ih _ _ (updF_nodup hm1 (lunion_nodup (hm1 B) _))
          · rw [if_neg c2]
            dsimp only
            exact ih _ _ hm1

theorem followBody_grow (g : Grammar) (fm : FirstMap) (head : String) :
    ∀ (body : List String) (m : FollowMap) (ch : Bool),
    (followBody g fm head body m ch).2 = true →
    ch = true ∨ totalFirst g m < totalFirst g (followBody g fm head body m ch).1 := by
  intro body
  induction body with
  | nil => intro m ch h; exact Or.inl h
  | cons B beta ih =>
      intro m ch hres
      simp only [followBody] at hres ⊢
      by_cases h1 : (lookupProds g B).isSome = true
      case neg =>
        rw [if_neg h1] at hres ⊢
        exact ih _ _ hres
      case pos =>
        rw [if_pos h1] at hres ⊢
        have hB : B ∈ headsF g := mem_headsF_of_lookup h1
        by_cases c1 : lsub (lerase (first_of_string g fm beta) "e") (m B) = true
        · rw [if_pos c1] at hres ⊢
          dsimp only at hres ⊢
          by_cases c2 : "e" ∈ first_of_string g fm beta ∨ beta = []
          · rw [if_pos c2] at hres ⊢
            by_cases c3 : lsub (m head) (m B) = true
            · rw [if_pos c3] at hres ⊢
              dsimp only at hres ⊢
              exact ih _ _ hres
            · rw [if_neg c3] at hres ⊢
              dsimp only at hres ⊢
              have hstrict : totalFirst g m <
                  totalFirst g (updF m B (lunion (m B) (m head))) := by
                refine totalFirst_lt g hB
                  (fun s => updF_len_mono (lunion_length _ _) s) ?_
                have hx := lunion_length_lt (exists_of_lsub_false c3)
                simpa [updF] using hx
              exact Or.inr (lt_of_lt_of_le hstrict
                (totalFirst_mono g (fun s => followBody_len_mono g fm head beta _ _ s)))
          · rw [if_neg c2] at hres ⊢
            dsimp only at hres ⊢
            exact ih _ _ hres
        · rw [if_neg c1] at hres ⊢
          dsimp only at hres ⊢
          have hstrict1 : totalFirst g m < totalFirst g
              (updF m B (lunion (m B) (lerase (first_of_string g fm beta) "e"))) := by
            refine totalFirst_lt g hB
              (fun s => updF_len_mono (lunion_length _ _) s) ?_
            have hx := lunion_length_lt (exists_of_lsub_false c1)
            simpa [updF] using hx
          by_cases c2 : "e" ∈ first_of_string g fm beta ∨ beta = []
          · rw [if_pos c2] at hres ⊢
            by_cases c3 : lsub
                ((updF m B (lunion (m B) (lerase (first_of_string g fm beta) "e"))) head)
                ((updF m B (lunion (m B) (lerase (first_of_string g fm beta) "e"))) B) =
                true
            · rw [if_pos c3] at hres ⊢
              dsimp only at hres ⊢
              exact Or.inr (lt_of_lt_of_le hstrict1
                (totalFirst_mono g (fun s => followBody_len_mono g fm head beta _ _ s)))
            · rw [if_neg c3] at hres ⊢
              dsimp only at hres ⊢
              refine Or.inr (lt_of_lt_of_le hstrict1 (le_trans
                (totalFirst_mono g (fun s => updF_len_mono (lunion_length _ _) s))
                (totalFirst_mono g (fun s => followBody_len_mono g fm head beta _ _ s))))
          · rw [if_neg c2] at hres ⊢
            dsimp only at hres ⊢
            exact Or.inr (lt_of_lt_of_le hstrict1
              (totalFirst_mono g (fun s => followBody_len_mono g fm head beta _ _ s)))

theorem followBodies_len_mono (g : Grammar) (fm : FirstMap) (head : String) :
    ∀ (bs : List (List String)) (m : FollowMap) (ch : Bool) (h : String),
    (m h).length ≤ ((followBodies g fm head bs m ch).1 h).length := by
  intro bs
  induction bs with
  | nil => intro m ch h; exact le_rfl
  | cons b rest ih =>
      intro m ch h
      simp only [followBodies]
      exact le_trans (followBody_len_mono g fm head b m ch h) (ih _ _ h)

theorem followProds_len_mono (g : Grammar) (fm : FirstMap) :
    ∀ (l : List (String × List (List String))) (m : FollowMap) (ch : Bool)
    (h : String),
    (m h).length ≤ ((followProds g fm l m ch).1 h).length := by
  intro l
  induction l with
  | nil => intro m ch h; exact le_rfl
  | cons e rest ih =>
      intro m ch h
      simp only [followProds]
      exact le_trans (followBodies_len_mono g fm e.1 e.2 m ch h) (ih _ _ h)

theorem followBodies_nodup (g : Grammar) (fm : FirstMap) (head : String) :
    ∀ (bs : List (List String)) (m : FollowMap) (ch : Bool),
    (∀ h, (m h).Nodup) → ∀ h, ((followBodies g fm head bs m ch).1 h).Nodup := by
  intro bs
  induction bs with
  | nil => intro m ch hm; exact hm
  | cons b rest ih =>
      intro m ch hm
      simp only [followBodies]
      exact ih _ _ (followBody_nodup g fm head b m ch hm)

theorem followProds_nodup (g : Grammar) (fm : FirstMap) :
    ∀ (l : List (String × List (List String))) (m : FollowMap) (ch : Bool),
    (∀ h, (m h).Nodup) → ∀ h, ((followProds g fm l m ch).1 h).Nodup := by
  intro l
  induction l with
  | nil => intro m ch hm; exact hm
  | cons e rest ih =>
      intro m ch hm
      simp only [followProds]
      exact ih _ _ (followBodies_nodup g fm e.1 e.2 m ch hm)

theorem followBodies_grow (g : Grammar) (fm : FirstMap) (head : String) :
    ∀ (bs : List (List String)) (m : FollowMap) (ch : Bool),
    (followBodies g fm head bs m ch).2 = true →
    ch = true ∨ totalFirst g m < totalFirst g (followBodies g fm head bs m ch).1 := by
  intro bs
  induction bs with
  | nil => intro m ch h; exact Or.inl h
  | cons b rest ih =>
      intro m ch hres
      simp only [followBodies] at hres ⊢
      rcases ih _ _ hres with hch | hlt
      · rcases followBody_grow g fm head b m ch hch with hc | hlt2
        · exact Or.inl hc
        · exact Or.inr (lt_of_lt_of_le hlt2
            (totalFirst_mono g (fun s => followBodies_len_mono g fm head rest _ _ s)))
      · exact Or.inr (lt_of_le_of_lt
          (totalFirst_mono g (fun s => followBody_len_mono g fm head b m ch s)) hlt)

theorem followProds_grow (g : Grammar) (fm : FirstMap) :
    ∀ (l : List (String × List (List String))) (m : FollowMap) (ch : Bool),
    (followProds g fm l m ch).2 = true →
    ch = true ∨ totalFirst g m < totalFirst g (followProds g fm l m ch).1 := by
  intro l
  induction l with
  | nil => intro m ch h; exact Or.inl h
  | cons e rest ih =>
      intro m ch hres
      simp only [followProds] at hres ⊢
      rcases ih _ _ hres with hch | hlt
      · rcases followBodies_grow g fm e.1 e.2 m ch hch with hc | hlt2
        · exact Or.inl hc
        · exact Or.inr (lt_of_lt_of_le hlt2
            (totalFirst_mono g (fun s => followProds_len_mono g fm rest _ _ s)))
      · exact Or.inr (lt_of_le_of_lt
          (totalFirst_mono g (fun s => followBodies_len_mono g fm e.1 e.2 m ch s)) hlt)

theorem passFollow_grow (g : Grammar) (fm : FirstMap) (m : FollowMap)
    (h : (passFollow g fm m).2 = true) :
    totalFirst g m < totalFirst g (passFollow g fm m).1 := by
  rcases followProds_grow g fm g.productions m false h with hc | hlt
  · cases hc
  · exact hlt

theorem totalFollow_le (g : Grammar) (m : FollowMap)
    (hn : ∀ h, (m h).Nodup)
    (hu : ∀ h x, x ∈ m h → x ∈ insert "e" (insert "$" (allSyms g).toFinset)) :
    totalFirst g m ≤ boundFollow g := by
  unfold totalFirst boundFollow
  calc ∑ h ∈ headsF g, (m h).length
      ≤ ∑ _h ∈ headsF g, (insert "e" (insert "$" (allSyms g).toFinset)).card :=
        Finset.sum_le_sum (fun i _ => length_le_card_of_mem (hn i) (hu i))
    _ = (headsF g).card * (insert "e" (insert "$" (allSyms g).toFinset)).card := by
        rw [Finset.sum_const, smul_eq_mul]
    _ ≤ (headsF g).card * ((allSyms g).toFinset.card + 2) := by
        refine Nat.mul_le_mul_left _ ?_
        calc (insert "e" (insert "$" (allSyms g).toFinset)).card
            ≤ (insert "$" (allSyms g).toFinset).card + 1 := Finset.card_insert_le _ _
          _ ≤ (allSyms g).toFinset.card + 1 + 1 :=
              Nat.add_le_add_right (Finset.card_insert_le _ _) 1
          _ = (allSyms g).toFinset.card + 2 := by omega

theorem followUniv_pres (g : Grammar) (fm : FirstMap)
    (hfm : ∀ h x, x ∈ fm h → x ∈ insert "e" (allSyms g).toFinset) :
    ∀ (m : FollowMap),
    (∀ h x, x ∈ m h → x ∈ insert "e" (insert "$" (allSyms g).toFinset)) →
    ∀ h x, x ∈ (passFollow g fm m).1 h →
    x ∈ insert "e" (insert "$" (allSyms g).toFinset) := by
  intro m hm
  refine followProds_pres g fm
    (fun y => y ∈ insert "e" (insert "$" (allSyms g).toFinset))
    g.productions m false ?_ hm
  intro e he b hb beta2 hsuf x hx _
  refine first_of_string_univ g fm
    (fun y => y ∈ insert "e" (insert "$" (allSyms g).toFinset)) ?_
    (Finset.mem_insert_self _ _) beta2 ?_ x hx
  · intro h2 x2 hx2
    rcases Finset.mem_insert.mp (hfm h2 x2 hx2) with he2 | hs2
    · rw [he2]; exact Finset.mem_insert_self _ _
    · exact Finset.mem_insert_of_mem (Finset.mem_insert_of_mem hs2)
  · intro s hs
    exact Finset.mem_insert_of_mem (Finset.mem_insert_of_mem
      (List.mem_toFinset.mpr (mem_allSyms he hb (hsuf.subset hs))))

theorem followRun_term (g : Grammar) (fm : FirstMap)
    (hfm : ∀ h x, x ∈ fm h → x ∈ insert "e" (allSyms g).toFinset) :
    ∀ (k : Nat) (m : FollowMap),
    (∀ h, (m h).Nodup) →
    (∀ h x, x ∈ m h → x ∈ insert "e" (insert "$" (allSyms g).toFinset)) →
    boundFollow g + 1 - totalFirst g m ≤ k →
    ∃ n, (followRun g fm n m).2 = false := by
  intro k
  induction k with
  | zero =>
      intro m hn hu hk
      have h1 : totalFirst g m ≤ boundFollow g := totalFollow_le g m hn hu
      exact absurd hk (by omega)
  | succ k ih =>
      intro m hn hu hk
      by_cases hc : (passFollow g fm m).2 = true
      · have hgrow := passFollow_grow g fm m hc
        have hn2 : ∀ h, ((passFollow g fm m).1 h).Nodup :=
          followProds_nodup g fm g.productions m false hn
        have hu2 := followUniv_pres g fm hfm m hu
        have hb2 : totalFirst g (passFollow g fm m).1 ≤ boundFollow g :=
          totalFollow_le g _ hn2 hu2
        rcases ih (passFollow g fm m).1 hn2 hu2 (by omega) with ⟨n, hstop⟩
        refine ⟨n + 1, ?_⟩
        simp only [followRun]
        rw [if_pos hc]
        exact hstop
      · refine ⟨1, ?_⟩
        simp only [followRun]
        rw [if_neg hc]

/-! ### The item universe of the LR(0) construction (claim C9) -/

theorem memItem_iff {it : LR0Item} {l : List LR0Item} :
    memItem it l = true ↔ it ∈ l := by
  unfold memItem
  rw [List.any_eq_true]
  constructor
  · rintro ⟨j, hj, hd⟩
    rw [of_decide_eq_true hd]
    exact hj
  · intro h
    exact ⟨it, h, decide_eq_true rfl⟩

theorem stateEq_iff {s t : List LR0Item} :
    stateEq s t = true ↔ s.toFinset = t.toFinset := by
  unfold stateEq
  rw [Bool.and_eq_true, List.all_eq_true, List.all_eq_true]
  constructor
  · rintro ⟨h1, h2⟩
    apply Finset.Subset.antisymm
    · intro x hx
      exact List.mem_toFinset.mpr (memItem_iff.mp (h1 x (List.mem_toFinset.mp hx)))
    · intro x hx
      exact List.mem_toFinset.mpr (memItem_iff.mp (h2 x (List.mem_toFinset.mp hx)))
  · intro h
    constructor
    · intro x hx
      exact memItem_iff.mpr
        (List.mem_toFinset.mp (h ▸ List.mem_toFinset.mpr hx))
    · intro x hx
      exact memItem_iff.mpr
        (List.mem_toFinset.mp (h.symm ▸ List.mem_toFinset.mpr hx))

theorem mem_itemsOfBody {hd : String} {b : List String} {x : LR0Item} :
    x ∈ itemsOfBody hd b ↔ ∃ d, d ≤ b.length ∧ x = ⟨hd, b, d⟩ := by
  unfold itemsOfBody
  rw [List.mem_map]
  constructor
  · rintro ⟨d, hd2, rfl⟩
    exact ⟨d, by have := List.mem_range.mp hd2; omega, rfl⟩
  · rintro ⟨d, hd2, rfl⟩
    exact ⟨d, List.mem_range.mpr (by omega), rfl⟩

theorem itemsOfBody_advance {hd : String} {b : List String} {x : LR0Item}
    (hx : x ∈ itemsOfBody hd b) (hlt : x.dot < x.body.length) :
    x.advance ∈ itemsOfBody hd b := by
  rcases mem_itemsOfBody.mp hx with ⟨d, _, rfl⟩
  exact mem_itemsOfBody.mpr ⟨d + 1, by simpa [LR0Item.advance] using hlt, rfl⟩

theorem mem_items_foldr {hd : String} {x : LR0Item} :
    ∀ (bs : List (List String)) (acc : List LR0Item),
    (x ∈ bs.foldr (fun b acc2 => itemsOfBody hd b ++ acc2) acc ↔
      (∃ b ∈ bs, x ∈ itemsOfBody hd b) ∨ x ∈ acc) := by
  intro bs
  induction bs with
  | nil => intro acc; simp
  | cons b0 rest ih =>
      intro acc
      show x ∈ itemsOfBody hd b0 ++
        rest.foldr (fun b acc2 => itemsOfBody hd b ++ acc2) acc ↔ _
      rw [List.mem_append, ih acc]
      constructor
      · rintro (h | ⟨b, hb, hx⟩ | h)
        · exact Or.inl ⟨b0, List.mem_cons_self _ _, h⟩
        · exact Or.inl ⟨b, List.mem_cons_of_mem _ hb, hx⟩
        · exact Or.inr h
      · rintro (⟨b, hb, hx⟩ | h)
        · rcases List.mem_cons.mp hb with rfl | hb2
          · exact Or.inl hx
          · exact Or.inr (Or.inl ⟨b, hb2, hx⟩)
        · exact Or.inr (Or.inr h)

theorem mem_itemList_iff {g2 : Grammar} {x : LR0Item} :
    x ∈ itemList g2 ↔ ∃ e ∈ g2.productions, ∃ b ∈ e.2, x ∈ itemsOfBody e.1 b := by
  unfold itemList
  have main : ∀ l : List (String × List (List String)),
      (x ∈ l.foldr
        (fun e acc => e.2.foldr (fun b acc2 => itemsOfBody e.1 b ++ acc2) acc) [] ↔
        ∃ e ∈ l, ∃ b ∈ e.2, x ∈ itemsOfBody e.1 b) := by
    intro l
    induction l with
    | nil => simp
    | cons p rest ih =>
        show x ∈ p.2.foldr (fun b acc2 => itemsOfBody p.1 b ++ acc2)
          (rest.foldr
            (fun e acc => e.2.foldr (fun b acc2 => itemsOfBody e.1 b ++ acc2) acc)
            []) ↔ _
        rw [mem_items_foldr p.2 _, ih]
        constructor
        · rintro (⟨b, hb, hx⟩ | ⟨e, he, b, hb, hx⟩)
          · exact ⟨p, List.mem_cons_self _ _, b, hb, hx⟩
          · exact ⟨e, List.mem_cons_of_mem _ he, b, hb, hx⟩
        · rintro ⟨e, he, b, hb, hx⟩
          rcases List.mem_cons.mp he with rfl | he2
          · exact Or.inl ⟨b, hb, hx⟩
          · exact Or.inr ⟨e, he2, b, hb, hx⟩
  exact main g2.productions

theorem alookup_some_mem {α β : Type} [DecidableEq α] :
    ∀ (l : List (α × β)) (k : α) (v : β), alookup l k = some v → (k, v) ∈ l := by
  intro l
  induction l with
  | nil => intro k v h; simp [alookup] at h
  | cons p rest ih =>
      intro k v h
      by_cases hp : p.1 = k
      · have hp2 : p = (k, p.2) := by rw [← hp]
        rw [hp2, alookup_cons_self] at h
        rw [hp2]
        rw [Option.some_inj] at h
        rw [← h]
        exact List.mem_cons_self _ _
      · rw [alookup_cons_ne _ _ _ hp] at h
        exact List.mem_cons_of_mem _ (ih k v h)

theorem alookup_addBody :
    ∀ (l : List (String × List (List String))) (hd : String) (b : List String)
    (k : String),
    alookup (addBody l hd b) k =
      if k = hd then some (((alookup l hd).getD []) ++ [b]) else alookup l k := by
  intro l
  induction l with
  | nil =>
      intro hd b k
      by_cases hk : k = hd
      · subst hk
        rw [if_pos rfl]
        show alookup [(k, [b])] k = _
        rw [alookup_cons_self]
        rfl
      · rw [if_neg hk]
        show alookup [(hd, [b])] k = alookup [] k
        rw [alookup_cons_ne _ _ _ (fun e => hk e.symm)]
  | cons p rest ih =>
      intro hd b k
      obtain ⟨pk, pv⟩ := p
      show alookup (if pk = hd then (pk, pv ++ [b]) :: rest
        else (pk, pv) :: addBody rest hd b) k = _
      by_cases hp : pk = hd
      · rw [if_pos hp]
        by_cases hk : k = hd
        · subst hk
          subst hp
          rw [if_pos rfl, alookup_cons_self, alookup_cons_self]
          rfl
        · rw [if_neg hk]
          have h1 : pk ≠ k := fun e => hk (e.symm.trans hp)
          have h1b : ((pk, pv ++ [b]) : String × List (List String)).1 ≠ k := h1
          have h1c : ((pk, pv) : String × List (List String)).1 ≠ k := h1
          rw [alookup_cons_ne _ _ _ h1b, alookup_cons_ne _ _ _ h1c]
      · rw [if_neg hp]
        by_cases hk2 : pk = k
        · subst hk2
          have hne : ¬ pk = hd := hp
          rw [if_neg hne, alookup_cons_self, alookup_cons_self]
        · have h2 : ((pk, pv) : String × List (List String)).1 ≠ k := hk2
          rw [alookup_cons_ne _ _ _ h2, ih hd b k]
          by_cases hkhd : k = hd
          · rw [if_pos hkhd, if_pos hkhd]
            have h3 : ((pk, pv) : String × List (List String)).1 ≠ hd := hp
            rw [alookup_cons_ne _ _ _ h3]
          · rw [if_neg hkhd, if_neg hkhd, alookup_cons_ne _ _ _ h2]

theorem aug_productions_eq (g : Grammar) :
    g.augmented.productions =
      addBody g.productions (g.startStr ++ "\x27") (pySplit g.startStr) := rfl

theorem dot0_mem_itemList {g2 : Grammar} {sym : String}
    {prods : List (List String)} {b : List String}
    (h : lookupProds g2 sym = some prods) (hb : b ∈ prods) :
    (⟨sym, b, 0⟩ : LR0Item) ∈ itemList g2 :=
  mem_itemList_iff.mpr ⟨(sym, prods), alookup_some_mem _ _ _ h, b, hb,
    mem_itemsOfBody.mpr ⟨0, Nat.zero_le _, rfl⟩⟩

theorem stateUniv_of_itemList_aug {g : Grammar} {it : LR0Item}
    (h : it ∈ itemList g.augmented) : it ∈ stateUniv g := by
  unfold stateUniv
  exact List.mem_toFinset.mpr (List.mem_append.mpr (Or.inr h))

theorem dot0_aug_mem_univ {g : Grammar} {sym : String}
    {prods : List (List String)} {b : List String}
    (h : lookupProds g.augmented sym = some prods) (hb : b ∈ prods) :
    (⟨sym, b, 0⟩ : LR0Item) ∈ stateUniv g :=
  stateUniv_of_itemList_aug (dot0_mem_itemList h hb)

theorem dot0_mem_univ {g : Grammar} {sym : String}
    {prods : List (List String)} {b : List String}
    (h : lookupProds g sym = some prods) (hb : b ∈ prods) :
    (⟨sym, b, 0⟩ : LR0Item) ∈ stateUniv g := by
  have haug : lookupProds g.augmented sym =
      if sym = g.startStr ++ "\x27" then
        some (((alookup g.productions (g.startStr ++ "\x27")).getD []) ++
          [pySplit g.startStr])
      else lookupProds g sym := by
    show alookup g.augmented.productions sym = _
    rw [aug_productions_eq]
    exact alookup_addBody g.productions _ _ sym
  by_cases hs : sym = g.startStr ++ "\x27"
  · rw [if_pos hs] at haug
    refine dot0_aug_mem_univ haug ?_
    rw [List.mem_append]
    left
    have : alookup g.productions sym = some prods := h
    rw [← hs, this]
    exact hb
  · rw [if_neg hs] at haug
    exact dot0_aug_mem_univ (haug.trans h) hb

theorem stateUniv_start (g : Grammar) : startItem g ∈ stateUniv g := by
  unfold stateUniv startItem
  refine List.mem_toFinset.mpr (List.mem_append.mpr (Or.inl ?_))
  exact mem_itemsOfBody.mpr ⟨0, Nat.zero_le _, rfl⟩

theorem stateUniv_advance {g : Grammar} {it : LR0Item}
    (h : it ∈ stateUniv g) (hlt : it.dot < it.body.length) :
    it.advance ∈ stateUniv g := by
  unfold stateUniv at h ⊢
  rcases List.mem_append.mp (List.mem_toFinset.mp h) with h2 | h2
  · exact List.mem_toFinset.mpr
      (List.mem_append.mpr (Or.inl (itemsOfBody_advance h2 hlt)))
  · rcases mem_itemList_iff.mp h2 with ⟨e, he, b, hb, hx⟩
    exact List.mem_toFinset.mpr (List.mem_append.mpr (Or.inr
      (mem_itemList_iff.mpr ⟨e, he, b, hb, itemsOfBody_advance hx hlt⟩)))

/-! ### Closure and goto stay inside the item universe (claim C9) -/

theorem closureAddProd_sub (U : Finset LR0Item) (cs : List LR0Item)
    (sym : String) :
    ∀ (pr : List (List String)),
    (∀ b ∈ pr, (⟨sym, b, 0⟩ : LR0Item) ∈ U) →
    ∀ (acc : List LR0Item), (∀ it ∈ acc, it ∈ U) →
    ∀ it2 ∈ pr.foldl (closureAddProd cs sym) acc, it2 ∈ U := by
  intro pr
  induction pr with
  | nil => intro _ acc hacc; exact hacc
  | cons b0 brest ih =>
      intro hall acc hacc it2 hit2
      rw [List.foldl_cons] at hit2
      refine ih (fun b hb => hall b (List.mem_cons_of_mem _ hb)) _ ?_ it2 hit2
      intro it3 hit3
      simp only [closureAddProd] at hit3
      by_cases hc : (memItem ⟨sym, b0, 0⟩ cs || memItem ⟨sym, b0, 0⟩ acc) = true
      · rw [if_pos hc] at hit3
        exact hacc it3 hit3
      · rw [if_neg hc] at hit3
        rcases List.mem_append.mp hit3 with h | h
        · exact hacc it3 h
        · rw [List.mem_singleton.mp h]
          exact hall b0 (List.mem_cons_self _ _)

theorem closureItemStep_sub (gc : Grammar) (U : Finset LR0Item)
    (hdot0 : ∀ sym prods b, lookupProds gc sym = some prods → b ∈ prods →
      (⟨sym, b, 0⟩ : LR0Item) ∈ U) (cs : List LR0Item) (it : LR0Item)
    (acc : List LR0Item) (hacc : ∀ x ∈ acc, x ∈ U) :
    ∀ x ∈ closureItemStep gc cs acc it, x ∈ U := by
  intro x hx
  cases hns : it.next_symbol with
  | none =>
      simp only [closureItemStep, hns] at hx
      exact hacc x hx
  | some sym =>
      simp only [closureItemStep, hns] at hx
      by_cases hne : sym ≠ ""
      · rw [if_pos hne] at hx
        cases hlk : lookupProds gc sym with
        | none =>
            rw [hlk] at hx
            exact hacc x hx
        | some prods =>
            rw [hlk] at hx
            exact closureAddProd_sub U cs sym prods
              (fun b hb => hdot0 sym prods b hlk hb) acc hacc x hx
      · rw [if_neg hne] at hx
        exact hacc x hx

theorem closureFold_sub (gc : Grammar) (U : Finset LR0Item)
    (hdot0 : ∀ sym prods b, lookupProds gc sym = some prods → b ∈ prods →
      (⟨sym, b, 0⟩ : LR0Item) ∈ U) (cs : List LR0Item) :
    ∀ (l : List LR0Item) (acc : List LR0Item), (∀ x ∈ acc, x ∈ U) →
    ∀ x ∈ l.foldl (closureItemStep gc cs) acc, x ∈ U := by
  intro l
  induction l with
  | nil => intro acc hacc; exact hacc
  | cons it rest ih =>
      intro acc hacc x hx
      rw [List.foldl_cons] at hx
      exact ih _ (closureItemStep_sub gc U hdot0 cs it acc hacc) x hx

theorem closureStep_sub (gc : Grammar) (U : Finset LR0Item)
    (hdot0 : ∀ sym prods b, lookupProds gc sym = some prods → b ∈ prods →
      (⟨sym, b, 0⟩ : LR0Item) ∈ U) {cs : List LR0Item}
    (hcs : ∀ x ∈ cs, x ∈ U) :
    ∀ x ∈ closureStep gc cs, x ∈ U := by
  intro x hx
  unfold closureStep at hx
  rcases List.mem_append.mp hx with h | h
  · exact hcs x h
  · exact closureFold_sub gc U hdot0 cs cs []
      (fun y hy => absurd hy (List.not_mem_nil y)) x h

theorem closureRun_sub (gc : Grammar) (U : Finset LR0Item)
    (hdot0 : ∀ sym prods b, lookupProds gc sym = some prods → b ∈ prods →
      (⟨sym, b, 0⟩ : LR0Item) ∈ U) :
    ∀ (fuel : Nat) (cs : List LR0Item), (∀ x ∈ cs, x ∈ U) →
    ∀ x ∈ closureRun gc fuel cs, x ∈ U := by
  intro fuel
  induction fuel with
  | zero => intro cs hcs; exact hcs
  | succ n ih =>
      intro cs hcs x hx
      simp only [closureRun] at hx
      by_cases hlen : (closureStep gc cs).length = cs.length
      · rw [if_pos hlen] at hx
        exact hcs x hx
      · rw [if_neg hlen] at hx
        exact ih _ (closureStep_sub gc U hdot0 hcs) x hx

theorem closure_sub (gc : Grammar) (U : Finset LR0Item)
    (hdot0 : ∀ sym prods b, lookupProds gc sym = some prods → b ∈ prods →
      (⟨sym, b, 0⟩ : LR0Item) ∈ U) {cs : List LR0Item}
    (hcs : ∀ x ∈ cs, x ∈ U) :
    ∀ x ∈ gc.closure cs, x ∈ U :=
  closureRun_sub gc U hdot0 _ cs hcs

theorem gotoFold_sub (U : Finset LR0Item)
    (hadv : ∀ it : LR0Item, it ∈ U → it.dot < it.body.length → it.advance ∈ U)
    (sym : String) :
    ∀ (items : List LR0Item), (∀ it ∈ items, it ∈ U) →
    ∀ (acc : List LR0Item), (∀ it ∈ acc, it ∈ U) →
    ∀ x ∈ items.foldl (gotoMoved sym) acc, x ∈ U := by
  intro items
  induction items with
  | nil => intro _ acc hacc; exact hacc
  | cons it rest ih =>
      intro hitems acc hacc x hx
      rw [List.foldl_cons] at hx
      refine ih (fun i hi => hitems i (List.mem_cons_of_mem _ hi)) _ ?_ x hx
      intro y hy
      unfold gotoMoved at hy
      by_cases hns : it.next_symbol = some sym
      · rw [if_pos hns] at hy
        by_cases hmem : memItem it.advance acc = true
        · rw [if_pos hmem] at hy
          exact hacc y hy
        · rw [if_neg hmem] at hy
          rcases List.mem_append.mp hy with h | h
          · exact hacc y h
          · rw [List.mem_singleton.mp h]
            have hlt : it.dot < it.body.length := by
              have h2 := hns
              unfold LR0Item.next_symbol at h2
              rcases List.get?_eq_some.mp h2 with ⟨hlt2, _⟩
              exact hlt2
            exact hadv it (hitems it (List.mem_cons_self _ _)) hlt
      · rw [if_neg hns] at hy
        exact hacc y hy

theorem goto_stateUniv (g : Grammar) {items : List LR0Item}
    (hitems : ∀ it ∈ items, it ∈ stateUniv g) (sym : String) :
    ∀ x ∈ g.goto items sym, x ∈ stateUniv g := by
  unfold Grammar.goto
  exact closure_sub g (stateUniv g)
    (fun sym2 prods b h hb => dot0_mem_univ h hb)
    (gotoFold_sub (stateUniv g) (fun it h1 h2 => stateUniv_advance h1 h2) sym
      items hitems [] (fun y hy => absurd hy (List.not_mem_nil y)))

/-! ### Termination of the breadth-first state exploration (claim C9) -/

theorem find?_cons_eq {α : Type} (p : α → Bool) (a : α) (l : List α) :
    List.find? p (a :: l) = if p a = true then some a else List.find? p l := by
  by_cases h : p a = true
  · rw [if_pos h]
    exact List.find?_cons_of_pos _ h
  · rw [if_neg h]
    exact List.find?_cons_of_neg _ (by simpa using h)

theorem lookupSeen_none :
    ∀ (seen : List (List LR0Item × Nat)) (s : List LR0Item),
    lookupSeen seen s = none → ∀ p ∈ seen, stateEq p.1 s = false := by
  intro seen
  induction seen with
  | nil => intro s _ p hp; cases hp
  | cons q rest ih =>
      intro s hl p hp
      unfold lookupSeen at hl
      rw [find?_cons_eq] at hl
      by_cases hq : stateEq q.1 s = true
      · rw [if_pos hq] at hl
        simp at hl
      · rw [if_neg hq] at hl
        rcases List.mem_cons.mp hp with rfl | hp2
        · exact Bool.eq_false_iff.mpr hq
        · exact ih s hl p hp2

theorem bfsProcessSym_spec (g : Grammar) (idx : Nat) (current : List LR0Item)
    (hcur : ∀ it ∈ current, it ∈ stateUniv g)
    (st : BfsState) (sym : String) (hinv : SeenInv g st) :
    SeenInv g (bfsProcessSym g idx current st sym) ∧
    (bfsProcessSym g idx current st sym).seen.length + st.queue.length =
      st.seen.length + (bfsProcessSym g idx current st sym).queue.length ∧
    st.seen.length ≤ (bfsProcessSym g idx current st sym).seen.length := by
  obtain ⟨hnd, hseenU, hqU⟩ := hinv
  unfold bfsProcessSym
  by_cases hemp : (g.goto current sym).isEmpty = true
  · rw [if_pos hemp]
    exact ⟨⟨hnd, hseenU, hqU⟩, rfl, le_rfl⟩
  · rw [if_neg hemp]
    have htgt : ∀ it ∈ g.goto current sym, it ∈ stateUniv g :=
      goto_stateUniv g hcur sym
    cases hlk : lookupSeen st.seen (g.goto current sym) with
    | some t =>
        simp only [hlk]
        exact ⟨⟨hnd, hseenU, hqU⟩, by simp, by simp⟩
    | none =>
        simp only [hlk]
        refine ⟨⟨?_, ?_, ?_⟩, ?_, ?_⟩
        · show (List.map (fun p => p.1.toFinset)
            (st.seen ++ [(g.goto current sym, st.states.length)])).Nodup
          rw [List.map_append]
          have hnotin : (g.goto current sym).toFinset ∉
              st.seen.map (fun p => p.1.toFinset) := by
            intro hmem2
            rcases List.mem_map.mp hmem2 with ⟨p, hp, he⟩
            have hf := lookupSeen_none st.seen _ hlk p hp
            rw [stateEq_iff.mpr he] at hf
            cases hf
          simp [List.nodup_append, hnd, hnotin]
        · intro p hp it hit
          rcases List.mem_append.mp hp with h | h
          · exact hseenU p h it hit
          · have he := List.mem_singleton.mp h
            rw [he] at hit
            exact htgt it hit
        · intro q hq it hit
          rcases List.mem_append.mp hq with h | h
          · exact hqU q h it hit
          · have he := List.mem_singleton.mp h
            rw [he] at hit
            exact htgt it hit
        · show (st.seen ++ [(g.goto current sym, st.states.length)]).length +
            st.queue.length = st.seen.length +
            (st.queue ++ [g.goto current sym]).length
          simp only [List.length_append, List.length_singleton]
          omega
        · show st.seen.length ≤
            (st.seen ++ [(g.goto current sym, st.states.length)]).length
          simp only [List.length_append, List.length_singleton]
          omega

theorem bfsFold_spec (g : Grammar) (idx : Nat) (current : List LR0Item)
    (hcur : ∀ it ∈ current, it ∈ stateUniv g) :
    ∀ (syms : List String) (st : BfsState), SeenInv g st →
    SeenInv g (syms.foldl (bfsProcessSym g idx current) st) ∧
    (syms.foldl (bfsProcessSym g idx current) st).seen.length + st.queue.length =
      st.seen.length + (syms.foldl (bfsProcessSym g idx current) st).queue.length ∧
    st.seen.length ≤ (syms.foldl (bfsProcessSym g idx current) st).seen.length := by
  intro syms
  induction syms with
  | nil => intro st hinv; exact ⟨hinv, rfl, le_rfl⟩
  | cons sy rest ih =>
      intro st hinv
      rw [List.foldl_cons]
      obtain ⟨h1, h2, h3⟩ := bfsProcessSym_spec g idx current hcur st sy hinv
      obtain ⟨h4, h5, h6⟩ := ih (bfsProcessSym g idx current st sy) h1
      exact ⟨h4, by omega, by omega⟩

theorem bfsStep_spec (g : Grammar) (st : BfsState) (current : List LR0Item)
    (hcur : ∀ it ∈ current, it ∈ stateUniv g) (hinv : SeenInv g st) :
    SeenInv g (bfsStep g st current) ∧
    (bfsStep g st current).seen.length + st.queue.length =
      st.seen.length + (bfsStep g st current).queue.length ∧
    st.seen.length ≤ (bfsStep g st current).seen.length := by
  unfold bfsStep
  exact bfsFold_spec g ((lookupSeen st.seen current).getD 0) current hcur
    (bfsSymbols g) st hinv

theorem seen_le_bound (g : Grammar) {st : BfsState} (hinv : SeenInv g st) :
    st.seen.length ≤ 2 ^ (stateUniv g).card := by
  obtain ⟨hnd, hseenU, _⟩ := hinv
  have h1 : (st.seen.map (fun p => p.1.toFinset)).length ≤
      ((stateUniv g).powerset).card := by
    refine length_le_card_of_mem hnd ?_
    intro x hx
    rcases List.mem_map.mp hx with ⟨p, hp, he⟩
    rw [← he]
    exact Finset.mem_powerset.mpr
      (fun it hit => hseenU p hp it (List.mem_toFinset.mp hit))
  rw [List.length_map, Finset.card_powerset] at h1
  exact h1

theorem bfsRun_term (g : Grammar) :
    ∀ (k : Nat) (st : BfsState), SeenInv g st → bfsMeasure g st ≤ k →
    ∃ n, (bfsRun g n st).queue = [] := by
  intro k
  induction k with
  | zero =>
      intro st hinv hk
      refine ⟨0, ?_⟩
      have hq0 : st.queue.length = 0 := by
        unfold bfsMeasure at hk
        omega
      exact List.length_eq_zero.mp hq0
  | succ k ih =>
      intro st hinv hk
      cases hq : st.queue with
      | nil => exact ⟨0, hq⟩
      | cons current rest =>
          have hcur : ∀ it ∈ current, it ∈ stateUniv g :=
            hinv.2.2 current (by rw [hq]; exact List.mem_cons_self _ _)
          have hinv1 : SeenInv g { st with queue := rest } := by
            obtain ⟨h1, h2, h3⟩ := hinv
            exact ⟨h1, h2,
              fun q hqmem => h3 q (by rw [hq]; exact List.mem_cons_of_mem _ hqmem)⟩
          obtain ⟨h4, h5, h6⟩ :=
            bfsStep_spec g { st with queue := rest } current hcur hinv1
          have hseen2 : (bfsStep g { st with queue := rest } current).seen.length ≤
              2 ^ (stateUniv g).card := seen_le_bound g h4
          have hseen0 : st.seen.length ≤ 2 ^ (stateUniv g).card :=
            seen_le_bound g hinv
          have hmeas : bfsMeasure g (bfsStep g { st with queue := rest } current) ≤ k := by
            unfold bfsMeasure at hk ⊢
            have hql : st.queue.length = rest.length + 1 := by
              rw [hq]
              rfl
            dsimp only at h5 h6
            omega
          rcases ih _ h4 hmeas with ⟨n, hn⟩
          refine ⟨n + 1, ?_⟩
          show (bfsRun g (n + 1) st).queue = []
          simp only [bfsRun, hq]
          exact hn

/-- C9: for every grammar, the `while changed` fixpoint loops of
`calculate_first` and `calculate_follow` exit because a pass reported no
change, and the breadth-first state exploration of `build_lr0_states`
empties its worklist: the computed sets only grow and are bounded by the
finite symbol alphabet, and the discovered states are pairwise distinct
subsets of the finite item universe. -/
theorem c9_fixpoint_loops_terminate (g : Grammar) :
    (∃ n, (firstRun g n (fun _ => [])).2 = false) ∧
    (∃ n, (followRun g (calculate_first g) n (followInit g)).2 = false) ∧
    (∃ n, (bfsRun g n (bfsInit g)).queue = []) := by
  refine ⟨?_, ?_, ?_⟩
  · exact firstRun_term g (boundFirst g + 1) (fun _ => [])
      (fun h => List.nodup_nil)
      (fun h x hx => absurd hx (List.not_mem_nil x))
      (Nat.sub_le _ _)
  · have hfm : ∀ h x, x ∈ calculate_first g h →
        x ∈ insert "e" (allSyms g).toFinset :=
      calculate_first_pres g (fun y => y ∈ insert "e" (allSyms g).toFinset)
        (Finset.mem_insert_self _ _)
        (fun e he b hb s hs _ =>
          Finset.mem_insert_of_mem (List.mem_toFinset.mpr (mem_allSyms he hb hs)))
    refine followRun_term g (calculate_first g) hfm (boundFollow g + 1)
      (followInit g) ?_ ?_ (Nat.sub_le _ _)
    · intro h
      unfold followInit
      by_cases hs : g.start_symbol = some h
      · rw [if_pos hs]
        exact List.nodup_singleton _
      · rw [if_neg hs]
        exact List.nodup_nil
    · intro h x hx
      unfold followInit at hx
      by_cases hs : g.start_symbol = some h
      · rw [if_pos hs] at hx
        rw [List.mem_singleton.mp hx]
        exact Finset.mem_insert_of_mem (Finset.mem_insert_self _ _)
      · rw [if_neg hs] at hx
        cases hx
  · have hsc : ∀ it ∈ g.augmented.closure [startItem g], it ∈ stateUniv g := by
      refine closure_sub g.augmented (stateUniv g)
        (fun sym prods b h hb => dot0_aug_mem_univ h hb) ?_
      intro x hx
      rw [List.mem_singleton.mp hx]
      exact stateUniv_start g
    have hinv : SeenInv g (bfsInit g) := by
      refine ⟨by simp [bfsInit], ?_, ?_⟩
      · intro p hp it hit
        have he := List.mem_singleton.mp hp
        rw [he] at hit
        exact hsc it hit
      · intro q hq it hit
        have he := List.mem_singleton.mp hq
        rw [he] at hit
        exact hsc it hit
    exact bfsRun_term g (bfsMeasure g (bfsInit g)) (bfsInit g) hinv le_rfl
